import Mathlib

/-!
# BitDeque

A shallow embedding of `src/BitDeque.cpp` (namespace `rmf`).

* `BitBlock` is declared in `BitBlock.h`; only `BitDeque.cpp` is translated here, so the block
  operations it calls are modelled from the specification (section 4.1) and marked as such.
* `BitDeque` is translated from `BitDeque.cpp`, one definition per member function.
  A `std::deque<BitBlock>` is a `List BitBlock` whose head is `front()` and whose last
  element is `back()`.  A member function that mutates the object returns the value it
  returns in C++ paired with the object after the call.
* `_size` is a `uint64_t` bit counter.  It is kept as a natural number: the additions made
  by the code cannot reach `2 ^ 64` on a list that fits in memory, and `-=` is the truncated
  subtraction of `Nat`, which agrees with the machine whenever the counter does not go
  below zero.
-/

set_option autoImplicit false

namespace rmf

/-! ## BitBlock (modelled from the specification) -/

/-- Modelled from the spec: the Bit Block of section 3 (class `BitBlock` of `BitBlock.h`), a
packed word `data` together with the count `size` of meaningful bits. -/
structure BitBlock where
  data : Nat
  size : Nat
deriving DecidableEq, Repr

namespace BitBlock

/-- Modelled from the spec: `MAX_BITS = 64`, the capacity of a block. -/
def MAX_NUM_BITS : Nat := 64

/-- Modelled from the spec: the block "created empty". -/
def empty : BitBlock := ⟨0, 0⟩

/-- Modelled from the spec: the block "created from `(data, size)`".  Only the low `size`
bits of `data` are kept, since bits beyond `size` must not be observable; a negative `size`
(the parameter is an `int8_t`) gives no bits. -/
def ofData (data : Nat) (size : Int) : BitBlock :=
  ⟨data % 2 ^ size.toNat, size.toNat⟩

/-- Modelled from the spec: the count of meaningful bits. -/
def GetSize (b : BitBlock) : Nat := b.size

/-- Modelled from the spec: the meaningful bits, as a number. -/
def GetData (b : BitBlock) : Nat := b.data % 2 ^ b.size

/-- Modelled from the spec: `isEmpty()` is `size == 0`. -/
def IsEmpty (b : BitBlock) : Bool := b.size == 0

/-- Modelled from the spec: `isFull()` is `size == MAX_BITS`. -/
def IsFull (b : BitBlock) : Bool := b.size == MAX_NUM_BITS

/-- Modelled from the spec: `spare()` is `MAX_BITS - size`. -/
def GetSpare (b : BitBlock) : Nat := MAX_NUM_BITS - b.size

/-- Modelled from the spec: `getBits(offset)` returns a new block with all bits from `offset`
to the end (`size - offset` bits, position 0 being the low end), and an empty block if
`offset ≥ size`. -/
def GetBits (b : BitBlock) (offset : Nat) : BitBlock :=
  if offset ≥ b.size then empty
  else ⟨(b.data / 2 ^ offset) % 2 ^ (b.size - offset), b.size - offset⟩

/-- Modelled from the spec: `setBits(data, count, offset)` overwrites `count` bits starting at
`offset` with the low `count` bits of `data` and returns the previous bits of that range; if
`offset + count > size` the write is rejected and the unchanged input is returned.
The result is the returned block paired with the block after the call. -/
def SetBits (b : BitBlock) (data : Nat) (count : Nat) (offset : Nat) : BitBlock × BitBlock :=
  if offset + count > b.size then (ofData data count, b)
  else
    let old := (b.data / 2 ^ offset) % 2 ^ count
    (⟨old, count⟩,
     ⟨(b.data - old * 2 ^ offset + (data % 2 ^ count) * 2 ^ offset) % 2 ^ b.size, b.size⟩)

/-- Modelled from the spec: `pushLow(value)` puts the bits of `value` below the existing
content.  Exactly `spare()` bits of the value fit; the excess bits, those nearest the low
end, are returned as overflow and are not retained.
The result is the overflow paired with the block after the call. -/
def PushLow (b v : BitBlock) : BitBlock × BitBlock :=
  if v.size ≤ b.GetSpare then
    (empty, ⟨(b.data * 2 ^ v.size + v.data % 2 ^ v.size) % 2 ^ (b.size + v.size),
             b.size + v.size⟩)
  else
    let k := v.size - b.GetSpare
    (⟨v.data % 2 ^ k, k⟩,
     ⟨(b.data * 2 ^ b.GetSpare + (v.data % 2 ^ v.size) / 2 ^ k) % 2 ^ MAX_NUM_BITS,
      MAX_NUM_BITS⟩)

/-- Modelled from the spec: `pushHigh(value)` puts the bits of `value` above the existing
content.  Exactly `spare()` bits of the value fit; the excess bits, those nearest the high
end, are returned as overflow and are not retained.
The result is the overflow paired with the block after the call. -/
def PushHigh (b v : BitBlock) : BitBlock × BitBlock :=
  if v.size ≤ b.GetSpare then
    (empty, ⟨((v.data % 2 ^ v.size) * 2 ^ b.size + b.data % 2 ^ b.size) % 2 ^ (b.size + v.size),
             b.size + v.size⟩)
  else
    let k := v.size - b.GetSpare
    (⟨(v.data % 2 ^ v.size) / 2 ^ b.GetSpare, k⟩,
     ⟨((v.data % 2 ^ b.GetSpare) * 2 ^ b.size + b.data % 2 ^ b.size) % 2 ^ MAX_NUM_BITS,
      MAX_NUM_BITS⟩)

/-- Modelled from the spec: `popLow(count)` removes and returns up to `count` bits from the
low end; if `count > size` only `size` bits are returned and the block becomes empty.
The result is the returned block paired with the block after the call. -/
def PopLow (b : BitBlock) (count : Nat) : BitBlock × BitBlock :=
  let k := min count b.size
  (⟨b.data % 2 ^ k, k⟩, ⟨(b.data % 2 ^ b.size) / 2 ^ k, b.size - k⟩)

/-- Modelled from the spec: `popHigh(count)` removes and returns up to `count` bits from the
high end; if `count > size` only `size` bits are returned and the block becomes empty.
The result is the returned block paired with the block after the call. -/
def PopHigh (b : BitBlock) (count : Nat) : BitBlock × BitBlock :=
  let k := min count b.size
  (⟨(b.data % 2 ^ b.size) / 2 ^ (b.size - k), k⟩, ⟨b.data % 2 ^ (b.size - k), b.size - k⟩)

end BitBlock

/-! ## BitDeque (translated from `BitDeque.cpp`) -/

/-- The data members of `class BitDeque`: the deque of blocks and the bit counter. -/
structure BitDeque where
  _blocks : List BitBlock
  _size : Nat
deriving DecidableEq, Repr

namespace BitDeque

open BitBlock

/-- Constructor `BitDeque::BitDeque()`: no blocks, size zero. -/
def new : BitDeque := ⟨[], 0⟩

/-- Member function `BitDeque::Clear`. -/
def Clear (_s : BitDeque) : BitDeque := ⟨[], 0⟩

/-- The `for (auto& block : _blocks)` loop of `GetBits`, entered with the running address
`currentAddr`; the cast of `addr - currentAddr` to `int8_t` is exact because the difference
is below the size of a block. -/
def getBitsScan : List BitBlock → Nat → Nat → BitBlock
  | [], _, _ => BitBlock.empty
  | block :: rest, currentAddr, addr =>
    if addr ≥ currentAddr ∧ addr < currentAddr + block.GetSize then
      block.GetBits (addr - currentAddr)
    else
      getBitsScan rest (currentAddr + block.GetSize) addr

/-- Member function `BitDeque::GetBits(addr)`. -/
def GetBits (s : BitDeque) (addr : Nat) : BitBlock :=
  if addr ≥ s._size ∨ s._blocks.isEmpty then BitBlock.empty
  else getBitsScan s._blocks 0 addr

/-- The `for (auto& block : _blocks)` loop of `SetBits`: the returned block and the list
after the call. -/
def setBitsScan : List BitBlock → Nat → Nat → Int → Nat → BitBlock × List BitBlock
  | [], _, data, size, _ => (BitBlock.ofData data size, [])
  | block :: rest, currentAddr, data, size, addr =>
    if addr ≥ currentAddr ∧ addr < currentAddr + block.GetSize then
      let r := block.SetBits data size.toNat (addr - currentAddr)
      (r.1, r.2 :: rest)
    else
      let r := setBitsScan rest (currentAddr + block.GetSize) data size addr
      (r.1, block :: r.2)

/-- Member function `BitDeque::SetBits(data, size, addr)`. -/
def SetBits (s : BitDeque) (data : Nat) (size : Int) (addr : Nat) : BitBlock × BitDeque :=
  if addr ≥ s._size ∨ s._blocks.isEmpty ∨ size ≤ 0 then (BitBlock.ofData data size, s)
  else
    let r := setBitsScan s._blocks 0 data size addr
    (r.1, ⟨r.2, s._size⟩)

/-- Member function `BitDeque::SetBits(block, addr)`. -/
def SetBitsBlock (s : BitDeque) (block : BitBlock) (addr : Nat) : BitBlock × BitDeque :=
  s.SetBits block.GetData block.GetSize addr

/-- Member function `BitDeque::PushLow(data, size)`. -/
def PushLow (s : BitDeque) (data : Nat) (size : Int) : BitBlock × BitDeque :=
  if size ≤ 0 then (BitBlock.empty, s)
  else
    let newBits := BitBlock.ofData data size
    if h : s._blocks = [] then
      (BitBlock.empty, ⟨s._blocks ++ [newBits], s._size + size.toNat⟩)
    else
      let lastBlock := s._blocks.getLast h
      if ¬ lastBlock.IsFull then
        let r := lastBlock.PushLow newBits
        let overflow := r.1
        let blocks1 := s._blocks.dropLast ++ [r.2]
        let size1 := s._size + (size.toNat - overflow.GetSize)
        if ¬ overflow.IsEmpty then
          (BitBlock.empty, ⟨blocks1 ++ [overflow], size1 + overflow.GetSize⟩)
        else
          (BitBlock.empty, ⟨blocks1, size1⟩)
      else
        (BitBlock.empty, ⟨s._blocks ++ [newBits], s._size + size.toNat⟩)

/-- Member function `BitDeque::PushLow(block)`. -/
def PushLowBlock (s : BitDeque) (block : BitBlock) : BitBlock × BitDeque :=
  s.PushLow block.GetData block.GetSize

/-- The `while (remaining > 0 && !_blocks.empty())` loop of `PopLow`, on the block list, the
bit counter, `remaining` and `result`.  The overflow of `result.PushHigh` is dropped, as in
the source. -/
def popLowLoop (blocks : List BitBlock) (size remaining : Nat) (result : BitBlock) :
    BitBlock × List BitBlock × Nat :=
  if h : remaining > 0 ∧ blocks ≠ [] then
    let lastBlock := blocks.getLast h.2
    let blockSize := lastBlock.GetSize
    if remaining ≥ blockSize then
      let result1 := if result.IsEmpty then lastBlock else (result.PushHigh lastBlock).2
      popLowLoop blocks.dropLast (size - blockSize) (remaining - blockSize) result1
    else
      let r := lastBlock.PopLow remaining
      let result1 := if result.IsEmpty then r.1 else (result.PushHigh r.1).2
      let blocks1 := if r.2.IsEmpty then blocks.dropLast else blocks.dropLast ++ [r.2]
      popLowLoop blocks1 (size - remaining) 0 result1
  else (result, blocks, size)
termination_by blocks.length + remaining
decreasing_by
  · have := List.length_pos.mpr h.2
    simp only [List.length_dropLast]
    omega
  · have := List.length_pos.mpr h.2
    split <;> simp [List.length_dropLast] <;> omega

/-- Member function `BitDeque::PopLow(size)`. -/
def PopLow (s : BitDeque) (size : Int) : BitBlock × BitDeque :=
  if size ≤ 0 ∨ s._blocks.isEmpty ∨ s._size = 0 then (BitBlock.empty, s)
  else
    let r := popLowLoop s._blocks s._size size.toNat BitBlock.empty
    (r.1, ⟨r.2.1, r.2.2⟩)

/-- Member function `BitDeque::PushHigh(data, size)`. -/
def PushHigh (s : BitDeque) (data : Nat) (size : Int) : BitBlock × BitDeque :=
  if size ≤ 0 then (BitBlock.empty, s)
  else
    let newBits := BitBlock.ofData data size
    match s._blocks with
    | [] => (BitBlock.empty, ⟨[newBits], s._size + size.toNat⟩)
    | firstBlock :: rest =>
      if ¬ firstBlock.IsFull then
        let r := firstBlock.PushHigh newBits
        let overflow := r.1
        let blocks1 := r.2 :: rest
        let size1 := s._size + (size.toNat - overflow.GetSize)
        if ¬ overflow.IsEmpty then
          (BitBlock.empty, ⟨overflow :: blocks1, size1 + overflow.GetSize⟩)
        else
          (BitBlock.empty, ⟨blocks1, size1⟩)
      else
        (BitBlock.empty, ⟨newBits :: firstBlock :: rest, s._size + size.toNat⟩)

/-- Member function `BitDeque::PushHigh(block)`. -/
def PushHighBlock (s : BitDeque) (block : BitBlock) : BitBlock × BitDeque :=
  s.PushHigh block.GetData block.GetSize

/-- The `while (remaining > 0 && !_blocks.empty())` loop of `PopHigh`.  The overflow of
`result.PushLow` is dropped, as in the source. -/
def popHighLoop (blocks : List BitBlock) (size remaining : Nat) (result : BitBlock) :
    BitBlock × List BitBlock × Nat :=
  if remaining > 0 then
    match blocks with
    | [] => (result, blocks, size)
    | firstBlock :: rest =>
      let blockSize := firstBlock.GetSize
      if remaining ≥ blockSize then
        let result1 := if result.IsEmpty then firstBlock else (result.PushLow firstBlock).2
        popHighLoop rest (size - blockSize) (remaining - blockSize) result1
      else
        let r := firstBlock.PopHigh remaining
        let result1 := if result.IsEmpty then r.1 else (result.PushLow r.1).2
        let blocks1 := if r.2.IsEmpty then rest else r.2 :: rest
        popHighLoop blocks1 (size - remaining) 0 result1
  else (result, blocks, size)
termination_by blocks.length + remaining
decreasing_by
  · simp only [List.length_cons]
    omega
  · split <;> simp <;> omega

/-- Member function `BitDeque::PopHigh(size)`. -/
def PopHigh (s : BitDeque) (size : Int) : BitBlock × BitDeque :=
  if size ≤ 0 ∨ s._blocks.isEmpty ∨ s._size = 0 then (BitBlock.empty, s)
  else
    let r := popHighLoop s._blocks s._size size.toNat BitBlock.empty
    (r.1, ⟨r.2.1, r.2.2⟩)

/-- The scan loop of `Defragment`, on the block list and the index `i`.  The result is the
list and the index at which the loop condition `i < _blocks.size() - 1` fails. -/
def defragLoop (blocks : List BitBlock) (i : Nat) : List BitBlock × Nat :=
  if h : i + 1 < blocks.length then
    let current := blocks[i]
    let next := blocks[i + 1]
    if current.GetSpare ≥ next.GetSize then
      let r := current.PushLow next
      let overflow := r.1
      let blocks1 := (blocks.set i r.2).eraseIdx (i + 1)
      if ¬ overflow.IsEmpty then
        defragLoop (blocks1.insertIdx (i + 1) overflow) (i + 1)
      else
        defragLoop blocks1 i
    else
      defragLoop blocks (i + 1)
  else (blocks, i)
termination_by blocks.length - i
decreasing_by
  · have h1 : ((blocks.set i (blocks[i].PushLow blocks[i + 1]).2).eraseIdx (i + 1)).length
        = blocks.length - 1 := by
      simp only [List.length_eraseIdx, List.length_set, h, if_true]
    rw [List.length_insertIdx _ _ (by omega)]
    omega
  · have h1 : ((blocks.set i (blocks[i].PushLow blocks[i + 1]).2).eraseIdx (i + 1)).length
        = blocks.length - 1 := by
      simp only [List.length_eraseIdx, List.length_set, h, if_true]
    omega
  · omega

/-- Member function `BitDeque::Defragment`. -/
def Defragment (s : BitDeque) : BitDeque :=
  if s._blocks.length ≤ 1 then s
  else ⟨(defragLoop s._blocks 0).1, s._size⟩

/-- The block search loop of `Remove`, entered at index `blockIndex` with the running address
`currentAddr`: the index at which the loop stops (the length of the list when no block
contains `addr`) and the value of `currentAddr` there. -/
def removeScan : List BitBlock → Nat → Nat → Nat → Nat × Nat
  | [], blockIndex, currentAddr, _ => (blockIndex, currentAddr)
  | block :: rest, blockIndex, currentAddr, addr =>
    let blockStart := currentAddr
    let blockEnd := currentAddr + block.GetSize
    if addr ≥ blockStart ∧ addr < blockEnd then (blockIndex, currentAddr)
    else removeScan rest (blockIndex + 1) blockEnd addr

/-- Member function `BitDeque::Remove(int8_t size, uint64_t addr)`.  The single-block case
builds the placeholder `BitBlock(0, remaining)` and lowers `_size`; no block is touched
before `Defragment` runs. -/
def Remove (s : BitDeque) (size : Int) (addr : Nat) : BitBlock × BitDeque :=
  if size ≤ 0 ∨ addr ≥ s._size ∨ s._blocks.isEmpty then (BitBlock.empty, s)
  else
    let found := removeScan s._blocks 0 0 addr
    let blockIndex := found.1
    let currentAddr := found.2
    if h : blockIndex ≥ s._blocks.length then (BitBlock.empty, s)
    else
      let remaining := size.toNat
      let offsetInBlock := addr - currentAddr
      let targetBlock := s._blocks[blockIndex]
      if offsetInBlock + remaining ≤ targetBlock.GetSize then
        (BitBlock.ofData 0 remaining, Defragment ⟨s._blocks, s._size - remaining⟩)
      else
        (BitBlock.empty, Defragment s)

/-- Member function `BitDeque::Remove(uint64_t size, uint64_t addr)`: the count of removed bits. -/
def RemoveCount (s : BitDeque) (size : Nat) (addr : Nat) : Nat × BitDeque :=
  if size > BitBlock.MAX_NUM_BITS then (0, s)
  else
    let r := s.Remove size addr
    (r.1.GetSize, r.2)

/-- Member function `BitDeque::Insert(block, addr)`.  For an interior address the source
only raises `_size` and runs `Defragment`. -/
def Insert (s : BitDeque) (block : BitBlock) (addr : Nat) : BitDeque :=
  if block.IsEmpty then s
  else if addr ≥ s._size then (s.PushLowBlock block).2
  else if addr = 0 then (s.PushHighBlock block).2
  else Defragment ⟨s._blocks, s._size + block.GetSize⟩

/-! ## The logical bit string and the invariants -/

/-- The sum of the sizes of the blocks. -/
def sumSizes : List BitBlock → Nat
  | [] => 0
  | b :: rest => b.size + sumSizes rest

/-- The logical bit string held by a block list, as a number of `sumSizes` bits: the blocks
are concatenated in list order, the block nearer the back being the lower-order one (the
back is where `PushLow` adds bits and the front is where `PushHigh` adds them). -/
def bitsOf : List BitBlock → Nat
  | [] => 0
  | b :: rest => (b.data % 2 ^ b.size) * 2 ^ sumSizes rest + bitsOf rest

/-- Invariant A: the size field is the sum of the block sizes. -/
def InvA (s : BitDeque) : Prop := s._size = sumSizes s._blocks

/-- Invariant B: every block of the list has a size in `1..64`. -/
def InvB (s : BitDeque) : Prop := ∀ b ∈ s._blocks, 0 < b.size ∧ b.size ≤ BitBlock.MAX_NUM_BITS

instance (s : BitDeque) : Decidable s.InvA :=
  inferInstanceAs (Decidable (s._size = sumSizes s._blocks))

instance (s : BitDeque) : Decidable s.InvB :=
  inferInstanceAs (Decidable (∀ b ∈ s._blocks, 0 < b.size ∧ b.size ≤ BitBlock.MAX_NUM_BITS))

/-- Two states hold the same bits in the same layout: equal size fields, equal lists of
block sizes and equal meaningful bits in every block. -/
def SameLayout (s t : BitDeque) : Prop :=
  s._size = t._size ∧ s._blocks.map BitBlock.GetSize = t._blocks.map BitBlock.GetSize ∧
    s._blocks.map BitBlock.GetData = t._blocks.map BitBlock.GetData

/-- No pair of adjacent blocks that starts below index `i` can be merged. -/
def NoMergeBelow (blocks : List BitBlock) (i : Nat) : Prop :=
  ∀ j, j < i → ∀ h : j + 1 < blocks.length, blocks[j].GetSpare < blocks[j + 1].GetSize

/-- The scan loop of `Defragment` run on a budget of iterations: every execution of the
loop body spends one unit of `fuel`, and the loop gives up (`none`) when the body would run
with no fuel left.  The body is that of `defragLoop`. -/
def defragLoopFuel : Nat → List BitBlock → Nat → Option (List BitBlock × Nat)
  | 0, blocks, i => if i + 1 < blocks.length then none else some (blocks, i)
  | fuel + 1, blocks, i =>
    if h : i + 1 < blocks.length then
      let current := blocks[i]
      let next := blocks[i + 1]
      if current.GetSpare ≥ next.GetSize then
        let r := current.PushLow next
        let overflow := r.1
        let blocks1 := (blocks.set i r.2).eraseIdx (i + 1)
        if ¬ overflow.IsEmpty then
          defragLoopFuel fuel (blocks1.insertIdx (i + 1) overflow) (i + 1)
        else
          defragLoopFuel fuel blocks1 i
      else
        defragLoopFuel fuel blocks (i + 1)
    else some (blocks, i)

/-! ## Arithmetic on packed words, and one step of each loop -/

/-- Reducing modulo a power of two and then modulo a smaller one is the smaller reduction. -/
theorem mod_pow_mod_pow (y a b : Nat) (h : a ≤ b) : y % 2 ^ b % 2 ^ a = y % 2 ^ a :=
  Nat.mod_mod_of_dvd y (Nat.pow_dvd_pow 2 h)

/-- The low `m` bits of a sum whose first term is shifted by `m` are those of the second. -/
theorem shl_add_mod (x y m : Nat) : (x * 2 ^ m + y) % 2 ^ m = y % 2 ^ m := by
  rw [Nat.add_comm, Nat.add_mul_mod_self_right]

/-- Shifting right by `m` recovers the shifted term when the other one fits in `m` bits. -/
theorem shl_add_div (x y m : Nat) (hy : y < 2 ^ m) : (x * 2 ^ m + y) / 2 ^ m = x := by
  rw [Nat.add_comm, Nat.add_mul_div_right _ _ (Nat.two_pow_pos m), Nat.div_eq_of_lt hy,
    Nat.zero_add]

/-- The high part of a shifted sum survives a reduction modulo a larger power of two. -/
theorem shl_add_mod_div (x y m n : Nat) (hy : y < 2 ^ n) :
    (x * 2 ^ n + y) % 2 ^ (m + n) / 2 ^ n = x % 2 ^ m := by
  have h1 : (x * 2 ^ n + y) % 2 ^ (m + n) = (x % 2 ^ m) * 2 ^ n + y := by
    rw [Nat.pow_add]
    have hx : x = (x / 2 ^ m) * 2 ^ m + x % 2 ^ m := by
      rw [Nat.mul_comm]; exact (Nat.div_add_mod x (2 ^ m)).symm
    have : x * 2 ^ n + y = (x % 2 ^ m * 2 ^ n + y) + (2 ^ m * 2 ^ n) * (x / 2 ^ m) := by
      conv_lhs => rw [hx]
      ring
    rw [this, Nat.add_mul_mod_self_left]
    apply Nat.mod_eq_of_lt
    have hx2 : x % 2 ^ m < 2 ^ m := Nat.mod_lt _ (Nat.two_pow_pos m)
    calc x % 2 ^ m * 2 ^ n + y < x % 2 ^ m * 2 ^ n + 2 ^ n := by omega
      _ = (x % 2 ^ m + 1) * 2 ^ n := by ring
      _ ≤ 2 ^ m * 2 ^ n := Nat.mul_le_mul_right _ hx2
  rw [h1, shl_add_div _ _ _ hy]

/-- The loop of `PopLow` stops at once when nothing remains to be popped. -/
theorem popLowLoop_zero (bs : List BitBlock) (sz : Nat) (r : BitBlock) :
    popLowLoop bs sz 0 r = (r, bs, sz) := by
  rw [popLowLoop]; simp

/-- The loop of `PopLow` stops at once on an empty block list. -/
theorem popLowLoop_nil (sz rem : Nat) (r : BitBlock) :
    popLowLoop [] sz rem r = (r, [], sz) := by
  rw [popLowLoop]; simp

/-- One iteration of the loop of `PopLow` that consumes the whole last block. -/
theorem popLowLoop_whole (init : List BitBlock) (b : BitBlock) (sz rem : Nat) (r : BitBlock)
    (h0 : 0 < rem) (h : b.size ≤ rem) :
    popLowLoop (init ++ [b]) sz rem r
      = popLowLoop init (sz - b.size) (rem - b.size)
          (if r.IsEmpty then b else (r.PushHigh b).2) := by
  rw [popLowLoop]; simp [h0, h, BitBlock.GetSize]

/-- The iteration of the loop of `PopLow` that splits the last block ends the loop. -/
theorem popLowLoop_part (init : List BitBlock) (b : BitBlock) (sz rem : Nat) (r : BitBlock)
    (h0 : 0 < rem) (h : rem < b.size) :
    popLowLoop (init ++ [b]) sz rem r
      = (if r.IsEmpty then (b.PopLow rem).1 else (r.PushHigh (b.PopLow rem).1).2,
         init ++ [(b.PopLow rem).2], sz - rem) := by
  rw [popLowLoop]
  have h2 : (b.PopLow rem).2.IsEmpty = false := by
    simp [BitBlock.PopLow, BitBlock.IsEmpty]; omega
  simp [h0, h, BitBlock.GetSize, h2, popLowLoop_zero]

/-- Block level: a value that fits is removed again by popping its size from the low end. -/
theorem BitBlock_PushLow_PopLow_fit (b v : BitBlock) (hfit : v.size ≤ 64 - b.size) :
    ((b.PushLow v).2.PopLow v.size).2 = ⟨b.data % 2 ^ b.size, b.size⟩ := by
  obtain ⟨d, m⟩ := b
  simp only at hfit
  simp only [BitBlock.PushLow, GetSpare, MAX_NUM_BITS, hfit, if_true, BitBlock.PopLow,
    Nat.min_eq_left (Nat.le_add_left _ _), Nat.add_sub_cancel, BitBlock.mk.injEq, and_true,
    Nat.mod_mod]
  exact shl_add_mod_div _ _ _ _ (Nat.mod_lt _ (Nat.two_pow_pos _))

/-- Block level: after an overflowing push at the low end, popping the former spare capacity
gives the block back. -/
theorem BitBlock_PushLow_PopLow_over (b v : BitBlock) (hb : b.size ≤ 64)
    (hv : v.size ≤ 64) (hover : 64 - b.size < v.size) :
    ((b.PushLow v).2.PopLow (64 - b.size)).2 = ⟨b.data % 2 ^ b.size, b.size⟩ := by
  obtain ⟨d, m⟩ := b
  simp only at hover hb
  have h1 : ¬ (v.size ≤ 64 - m) := by omega
  have h2 : 64 - (64 - m) = m := by omega
  simp only [BitBlock.PushLow, GetSpare, MAX_NUM_BITS, h1, if_false, BitBlock.PopLow,
    Nat.min_eq_left (Nat.sub_le _ _), BitBlock.mk.injEq, h2, and_true, Nat.mod_mod]
  obtain ⟨s, hs⟩ : ∃ s, 64 - m = s := ⟨_, rfl⟩
  have h3 : (2 : Nat) ^ 64 = 2 ^ (m + s) := by congr 1; omega
  rw [hs, h3]
  apply shl_add_mod_div
  rw [Nat.div_lt_iff_lt_mul (Nat.two_pow_pos _), ← Nat.pow_add]
  have h4 : s + (v.size - s) = v.size := by omega
  rw [h4]
  exact Nat.mod_lt _ (Nat.two_pow_pos _)

/-- Past its guard, `PopLow` is its loop started with an empty result. -/
theorem PopLow_eq_loop (blocks : List BitBlock) (sz n : Nat) (hn : 0 < n)
    (hne : blocks ≠ []) (hs : sz ≠ 0) :
    (BitDeque.mk blocks sz).PopLow (n : Int)
      = ((popLowLoop blocks sz n BitBlock.empty).1,
         ⟨(popLowLoop blocks sz n BitBlock.empty).2.1,
          (popLowLoop blocks sz n BitBlock.empty).2.2⟩) := by
  have hns : ¬ ((n : Int) ≤ 0) := by omega
  simp [PopLow, hns, hne, hs]

/-- The case of an empty block list in `PushLow`. -/
theorem PushLow_nil (sz data n : Nat) (hn : 0 < n) :
    (BitDeque.mk [] sz).PushLow data n = (BitBlock.empty, ⟨[ofData data n], sz + n⟩) := by
  have hns : ¬ ((n : Int) ≤ 0) := by omega
  simp [PushLow, hns]

/-- The case of `PushLow` in which the last block is full. -/
theorem PushLow_full (init : List BitBlock) (b : BitBlock) (sz data n : Nat) (hn : 0 < n)
    (hfull : b.size = 64) :
    (BitDeque.mk (init ++ [b]) sz).PushLow data n
      = (BitBlock.empty, ⟨init ++ [b] ++ [ofData data n], sz + n⟩) := by
  have hns : ¬ ((n : Int) ≤ 0) := by omega
  simp [PushLow, hns, IsFull, hfull, MAX_NUM_BITS]

/-- The case of `PushLow` in which the value fits in the last block. -/
theorem PushLow_fit (init : List BitBlock) (b : BitBlock) (sz data n : Nat) (hn : 0 < n)
    (hfull : b.size ≠ 64) (hfit : n ≤ 64 - b.size) :
    (BitDeque.mk (init ++ [b]) sz).PushLow data n
      = (BitBlock.empty, ⟨init ++ [(b.PushLow (ofData data n)).2], sz + n⟩) := by
  have hns : ¬ ((n : Int) ≤ 0) := by omega
  simp [PushLow, hns, IsFull, hfull, MAX_NUM_BITS, BitBlock.PushLow, GetSpare, ofData,
    hfit, BitBlock.IsEmpty, BitBlock.empty, GetSize]

/-- The case of `PushLow` in which the last block overflows into a new block. -/
theorem PushLow_over (init : List BitBlock) (b : BitBlock) (sz data n : Nat) (hn : 0 < n)
    (hfull : b.size ≠ 64) (hover : 64 - b.size < n) :
    (BitDeque.mk (init ++ [b]) sz).PushLow data n
      = (BitBlock.empty,
          ⟨init ++ [(b.PushLow (ofData data n)).2] ++ [(b.PushLow (ofData data n)).1], sz + n⟩) := by
  have hns : ¬ ((n : Int) ≤ 0) := by omega
  have hfit : ¬ (n ≤ 64 - b.size) := by omega
  have hk : ¬ (n - (64 - b.size) = 0) := by omega
  have hsz : sz + (n - (n - (64 - b.size))) + (n - (64 - b.size)) = sz + n := by omega
  simp [PushLow, hns, IsFull, hfull, MAX_NUM_BITS, BitBlock.PushLow, GetSpare, ofData,
    hfit, BitBlock.IsEmpty, BitBlock.empty, GetSize, hk, hsz]

/-- State after `PushLow` then `PopLow`: the prior state, up to the bits of the last block
above its size. -/
theorem PushLow_PopLow_state (s : BitDeque) (data : Nat) (size : Int)
    (hB : s.InvB) (h1 : 1 ≤ size) (h64 : size ≤ 64) :
    ((s.PushLow data size).2.PopLow size).2 = s ∨
    ∃ init last, s._blocks = init ++ [last] ∧
      ((s.PushLow data size).2.PopLow size).2
        = ⟨init ++ [⟨last.data % 2 ^ last.size, last.size⟩], s._size⟩ := by
  obtain ⟨blocks, sz⟩ := s
  obtain ⟨n, rfl⟩ : ∃ n : Nat, size = (n : Int) := ⟨size.toNat, by omega⟩
  have hn1 : 0 < n := by omega
  have hn64 : n ≤ 64 := by omega
  rcases List.eq_nil_or_concat blocks with rfl | ⟨init, b, rfl⟩ <;> simp only [List.concat_eq_append] at *
  · left
    rw [PushLow_nil _ _ _ hn1, PopLow_eq_loop _ _ _ hn1 (by simp) (by omega)]
    have := popLowLoop_whole [] (ofData data n) (sz + n) n BitBlock.empty hn1 (by simp [ofData])
    simp only [List.nil_append] at this
    rw [this, popLowLoop_nil]
    simp [ofData]
  · have hb := hB b (by simp)
    simp only [MAX_NUM_BITS] at hb
    by_cases hfull : b.size = 64
    · left
      rw [PushLow_full _ _ _ _ _ hn1 hfull, PopLow_eq_loop _ _ _ hn1 (by simp) (by omega),
        popLowLoop_whole _ _ _ _ _ hn1 (by simp [ofData])]
      simp [ofData, popLowLoop_zero]
    · right
      refine ⟨init, b, rfl, ?_⟩
      by_cases hfit : n ≤ 64 - b.size
      · have e2 : (b.PushLow (ofData data n)).2.size = b.size + n := by
          simp [BitBlock.PushLow, GetSpare, ofData, hfit, MAX_NUM_BITS]
        rw [PushLow_fit _ _ _ _ _ hn1 hfull hfit, PopLow_eq_loop _ _ _ hn1 (by simp) (by omega),
          popLowLoop_part _ _ _ _ _ hn1 (by omega)]
        simp only [BitDeque.mk.injEq, Nat.add_sub_cancel, and_true]
        have := BitBlock_PushLow_PopLow_fit b (ofData data n) (by simpa [ofData] using hfit)
        simp only [ofData, Int.toNat_ofNat] at this ⊢
        rw [this]
      · have hover : 64 - b.size < n := by omega
        have e1 : (b.PushLow (ofData data n)).1.size = n - (64 - b.size) := by
          simp [BitBlock.PushLow, GetSpare, ofData, hfit, MAX_NUM_BITS]
        have e2 : (b.PushLow (ofData data n)).2.size = 64 := by
          simp [BitBlock.PushLow, GetSpare, ofData, hfit, MAX_NUM_BITS]
        rw [PushLow_over _ _ _ _ _ hn1 hfull hover, PopLow_eq_loop _ _ _ hn1 (by simp) (by omega),
          popLowLoop_whole _ _ _ _ _ hn1 (by omega), e1,
          popLowLoop_part _ _ _ _ _ (by omega) (by omega)]
        have h3 : n - (n - (64 - b.size)) = 64 - b.size := by omega
        simp only [BitDeque.mk.injEq, h3]
        have := BitBlock_PushLow_PopLow_over b (ofData data n) hb.2
          (by simpa [ofData] using hn64) (by simpa [ofData] using hover)
        rw [this]
        refine ⟨rfl, by omega⟩

/-- The loop of `PopHigh` stops at once when nothing remains to be popped. -/
theorem popHighLoop_zero (bs : List BitBlock) (sz : Nat) (r : BitBlock) :
    popHighLoop bs sz 0 r = (r, bs, sz) := by
  rw [popHighLoop.eq_def]; simp

/-- The loop of `PopHigh` stops at once on an empty block list. -/
theorem popHighLoop_nil (sz rem : Nat) (r : BitBlock) :
    popHighLoop [] sz rem r = (r, [], sz) := by
  rw [popHighLoop.eq_def]; split <;> rfl

/-- One iteration of the loop of `PopHigh` that consumes the whole first block. -/
theorem popHighLoop_whole (b : BitBlock) (rest : List BitBlock) (sz rem : Nat) (r : BitBlock)
    (h0 : 0 < rem) (h : b.size ≤ rem) :
    popHighLoop (b :: rest) sz rem r
      = popHighLoop rest (sz - b.size) (rem - b.size)
          (if r.IsEmpty then b else (r.PushLow b).2) := by
  rw [popHighLoop.eq_def]; simp [h0, h, BitBlock.GetSize]

/-- The iteration of the loop of `PopHigh` that splits the first block ends the loop. -/
theorem popHighLoop_part (b : BitBlock) (rest : List BitBlock) (sz rem : Nat) (r : BitBlock)
    (h0 : 0 < rem) (h : rem < b.size) :
    popHighLoop (b :: rest) sz rem r
      = (if r.IsEmpty then (b.PopHigh rem).1 else (r.PushLow (b.PopHigh rem).1).2,
         (b.PopHigh rem).2 :: rest, sz - rem) := by
  rw [popHighLoop.eq_def]
  have h2 : (b.PopHigh rem).2.IsEmpty = false := by
    simp [BitBlock.PopHigh, BitBlock.IsEmpty]; omega
  simp [h0, h, BitBlock.GetSize, h2, popHighLoop_zero]

/-- Past its guard, `PopHigh` is its loop started with an empty result. -/
theorem PopHigh_eq_loop (blocks : List BitBlock) (sz n : Nat) (hn : 0 < n)
    (hne : blocks ≠ []) (hs : sz ≠ 0) :
    (BitDeque.mk blocks sz).PopHigh (n : Int)
      = ((popHighLoop blocks sz n BitBlock.empty).1,
         ⟨(popHighLoop blocks sz n BitBlock.empty).2.1,
          (popHighLoop blocks sz n BitBlock.empty).2.2⟩) := by
  have hns : ¬ ((n : Int) ≤ 0) := by omega
  simp [PopHigh, hns, hne, hs]


/-- Block level: a value that fits is removed again by popping its size from the high end. -/
theorem BitBlock_PushHigh_PopHigh_fit (b v : BitBlock) (hfit : v.size ≤ 64 - b.size) :
    ((b.PushHigh v).2.PopHigh v.size).2 = ⟨b.data % 2 ^ b.size, b.size⟩ := by
  obtain ⟨d, m⟩ := b
  simp only at hfit
  simp only [BitBlock.PushHigh, GetSpare, MAX_NUM_BITS, hfit, if_true, BitBlock.PopHigh,
    Nat.min_eq_left (Nat.le_add_left _ _), Nat.add_sub_cancel, BitBlock.mk.injEq, and_true]
  rw [mod_pow_mod_pow _ _ _ (Nat.le_add_right _ _), shl_add_mod, Nat.mod_mod]

/-- Block level: after an overflowing push at the high end, popping the former spare
capacity gives the block back. -/
theorem BitBlock_PushHigh_PopHigh_over (b v : BitBlock)
    (hb : b.size ≤ 64) (hover : 64 - b.size < v.size) :
    ((b.PushHigh v).2.PopHigh (64 - b.size)).2 = ⟨b.data % 2 ^ b.size, b.size⟩ := by
  obtain ⟨d, m⟩ := b
  simp only at hover hb
  have h1 : ¬ (v.size ≤ 64 - m) := by omega
  have h2 : 64 - (64 - m) = m := by omega
  simp only [BitBlock.PushHigh, GetSpare, MAX_NUM_BITS, h1, if_false, BitBlock.PopHigh,
    Nat.min_eq_left (Nat.sub_le _ _), BitBlock.mk.injEq, h2, and_true]
  rw [mod_pow_mod_pow _ _ _ hb, shl_add_mod, Nat.mod_mod]

/-- The case of an empty block list in `PushHigh`. -/
theorem PushHigh_nil (sz data n : Nat) (hn : 0 < n) :
    (BitDeque.mk [] sz).PushHigh data n = (BitBlock.empty, ⟨[ofData data n], sz + n⟩) := by
  have hns : ¬ ((n : Int) ≤ 0) := by omega
  simp [PushHigh, hns]

/-- The case of `PushHigh` in which the first block is full. -/
theorem PushHigh_full (b : BitBlock) (rest : List BitBlock) (sz data n : Nat) (hn : 0 < n)
    (hfull : b.size = 64) :
    (BitDeque.mk (b :: rest) sz).PushHigh data n
      = (BitBlock.empty, ⟨ofData data n :: b :: rest, sz + n⟩) := by
  have hns : ¬ ((n : Int) ≤ 0) := by omega
  simp [PushHigh, hns, IsFull, hfull, MAX_NUM_BITS]

/-- The case of `PushHigh` in which the value fits in the first block. -/
theorem PushHigh_fit (b : BitBlock) (rest : List BitBlock) (sz data n : Nat) (hn : 0 < n)
    (hfull : b.size ≠ 64) (hfit : n ≤ 64 - b.size) :
    (BitDeque.mk (b :: rest) sz).PushHigh data n
      = (BitBlock.empty, ⟨(b.PushHigh (ofData data n)).2 :: rest, sz + n⟩) := by
  have hns : ¬ ((n : Int) ≤ 0) := by omega
  simp [PushHigh, hns, IsFull, hfull, MAX_NUM_BITS, BitBlock.PushHigh, GetSpare, ofData,
    hfit, BitBlock.IsEmpty, BitBlock.empty, GetSize]

/-- The case of `PushHigh` in which the first block overflows into a new block. -/
theorem PushHigh_over (b : BitBlock) (rest : List BitBlock) (sz data n : Nat) (hn : 0 < n)
    (hfull : b.size ≠ 64) (hover : 64 - b.size < n) :
    (BitDeque.mk (b :: rest) sz).PushHigh data n
      = (BitBlock.empty,
          ⟨(b.PushHigh (ofData data n)).1 :: (b.PushHigh (ofData data n)).2 :: rest, sz + n⟩) := by
  have hns : ¬ ((n : Int) ≤ 0) := by omega
  have hfit : ¬ (n ≤ 64 - b.size) := by omega
  have hk : ¬ (n - (64 - b.size) = 0) := by omega
  have hsz : sz + (n - (n - (64 - b.size))) + (n - (64 - b.size)) = sz + n := by omega
  simp [PushHigh, hns, IsFull, hfull, MAX_NUM_BITS, BitBlock.PushHigh, GetSpare, ofData,
    hfit, BitBlock.IsEmpty, BitBlock.empty, GetSize, hk, hsz]

/-- State after `PushHigh` then `PopHigh`: the prior state, up to the bits of the first block
above its size. -/
theorem PushHigh_PopHigh_state (s : BitDeque) (data : Nat) (size : Int)
    (hB : s.InvB) (h1 : 1 ≤ size) (h64 : size ≤ 64) :
    ((s.PushHigh data size).2.PopHigh size).2 = s ∨
    ∃ first rest, s._blocks = first :: rest ∧
      ((s.PushHigh data size).2.PopHigh size).2
        = ⟨⟨first.data % 2 ^ first.size, first.size⟩ :: rest, s._size⟩ := by
  obtain ⟨blocks, sz⟩ := s
  obtain ⟨n, rfl⟩ : ∃ n : Nat, size = (n : Int) := ⟨size.toNat, by omega⟩
  have hn1 : 0 < n := by omega
  have hn64 : n ≤ 64 := by omega
  cases blocks with
  | nil =>
    left
    rw [PushHigh_nil _ _ _ hn1, PopHigh_eq_loop _ _ _ hn1 (by simp) (by omega),
      popHighLoop_whole _ _ _ _ _ hn1 (by simp [ofData]), popHighLoop_nil]
    simp [ofData]
  | cons b rest =>
    have hb := hB b (List.mem_cons_self _ _)
    simp only [MAX_NUM_BITS] at hb
    by_cases hfull : b.size = 64
    · left
      rw [PushHigh_full _ _ _ _ _ hn1 hfull, PopHigh_eq_loop _ _ _ hn1 (by simp) (by omega),
        popHighLoop_whole _ _ _ _ _ hn1 (by simp [ofData])]
      simp [ofData, popHighLoop_zero]
    · right
      refine ⟨b, rest, rfl, ?_⟩
      by_cases hfit : n ≤ 64 - b.size
      · have e2 : (b.PushHigh (ofData data n)).2.size = b.size + n := by
          simp [BitBlock.PushHigh, GetSpare, ofData, hfit, MAX_NUM_BITS]
        rw [PushHigh_fit _ _ _ _ _ hn1 hfull hfit, PopHigh_eq_loop _ _ _ hn1 (by simp) (by omega),
          popHighLoop_part _ _ _ _ _ hn1 (by omega)]
        simp only [BitDeque.mk.injEq, Nat.add_sub_cancel, and_true]
        have := BitBlock_PushHigh_PopHigh_fit b (ofData data n) (by simpa [ofData] using hfit)
        simp only [ofData, Int.toNat_ofNat] at this ⊢
        rw [this]
      · have hover : 64 - b.size < n := by omega
        have e1 : (b.PushHigh (ofData data n)).1.size = n - (64 - b.size) := by
          simp [BitBlock.PushHigh, GetSpare, ofData, hfit, MAX_NUM_BITS]
        have e2 : (b.PushHigh (ofData data n)).2.size = 64 := by
          simp [BitBlock.PushHigh, GetSpare, ofData, hfit, MAX_NUM_BITS]
        rw [PushHigh_over _ _ _ _ _ hn1 hfull hover, PopHigh_eq_loop _ _ _ hn1 (by simp) (by omega),
          popHighLoop_whole _ _ _ _ _ hn1 (by omega), e1,
          popHighLoop_part _ _ _ _ _ (by omega) (by omega)]
        have h3 : n - (n - (64 - b.size)) = 64 - b.size := by omega
        simp only [BitDeque.mk.injEq, h3]
        have := BitBlock_PushHigh_PopHigh_over b (ofData data n) hb.2
          (by simpa [ofData] using hover)
        rw [this]
        refine ⟨rfl, by omega⟩

/-- The bit count of a concatenation. -/
theorem sumSizes_append (xs ys : List BitBlock) :
    sumSizes (xs ++ ys) = sumSizes xs + sumSizes ys := by
  induction xs with
  | nil => simp [sumSizes]
  | cons x xs ih => simp [sumSizes, ih, Nat.add_assoc]

/-- The bit string of a concatenation: the second list supplies the low-order bits. -/
theorem bitsOf_append (xs ys : List BitBlock) :
    bitsOf (xs ++ ys) = bitsOf xs * 2 ^ sumSizes ys + bitsOf ys := by
  induction xs with
  | nil => simp [bitsOf]
  | cons x xs ih =>
    rw [List.cons_append, bitsOf, bitsOf, ih, sumSizes_append, Nat.pow_add]
    ring

/-- Reducing a shifted sum modulo a larger power of two only truncates the shifted part. -/
theorem shl_add_mod_split (x y m n : Nat) (hy : y < 2 ^ n) :
    (x * 2 ^ n + y) % 2 ^ (m + n) = (x % 2 ^ m) * 2 ^ n + y := by
  have h := shl_add_mod_div x y m n hy
  have h2 : (x * 2 ^ n + y) % 2 ^ (m + n) % 2 ^ n = y := by
    rw [mod_pow_mod_pow _ _ _ (Nat.le_add_left _ _), shl_add_mod, Nat.mod_eq_of_lt hy]
  have h3 := Nat.div_add_mod ((x * 2 ^ n + y) % 2 ^ (m + n)) (2 ^ n)
  rw [h, h2] at h3
  rw [← h3, Nat.mul_comm]

/-- Effect of `PushLow(data, size)` on the return value, the size field and the bit string. -/
theorem PushLow_bits (s : BitDeque) (data : Nat) (size : Int)
    (hB : ∀ b ∈ s._blocks, b.size ≤ 64) (h1 : 1 ≤ size) (h64 : size ≤ 64) :
    (s.PushLow data size).1 = BitBlock.empty ∧
    (s.PushLow data size).2._size = s._size + size.toNat ∧
    sumSizes (s.PushLow data size).2._blocks = sumSizes s._blocks + size.toNat ∧
    bitsOf (s.PushLow data size).2._blocks
      = bitsOf s._blocks * 2 ^ size.toNat + data % 2 ^ size.toNat := by
  obtain ⟨blocks, sz⟩ := s
  obtain ⟨n, rfl⟩ : ∃ n : Nat, size = (n : Int) := ⟨size.toNat, by omega⟩
  have hn1 : 0 < n := by omega
  have hn64 : n ≤ 64 := by omega
  simp only [Int.toNat_ofNat]
  rcases List.eq_nil_or_concat blocks with rfl | ⟨init, b, rfl⟩ <;>
    simp only [List.concat_eq_append] at *
  · rw [PushLow_nil _ _ _ hn1]
    simp [sumSizes, bitsOf, ofData]
  · have hb := hB b (by simp)
    by_cases hfull : b.size = 64
    · rw [PushLow_full _ _ _ _ _ hn1 hfull]
      simp only [sumSizes_append, bitsOf_append, sumSizes, bitsOf, ofData, Int.toNat_ofNat,
        Nat.mod_mod, Nat.add_zero, Nat.pow_zero, Nat.mul_one, true_and, Nat.add_assoc]
    · by_cases hfit : n ≤ 64 - b.size
      · rw [PushLow_fit _ _ _ _ _ hn1 hfull hfit]
        simp only [sumSizes_append, bitsOf_append, sumSizes, bitsOf, ofData, BitBlock.PushLow,
          GetSpare, MAX_NUM_BITS, hfit, if_true, Int.toNat_ofNat, Nat.mod_mod, Nat.add_zero,
          Nat.pow_zero, Nat.mul_one, true_and]
        refine ⟨by omega, ?_⟩
        rw [shl_add_mod_split _ _ _ _ (Nat.mod_lt _ (Nat.two_pow_pos _)), Nat.pow_add]
        ring
      · have hover : 64 - b.size < n := by omega
        rw [PushLow_over _ _ _ _ _ hn1 hfull hover]
        obtain ⟨sp, hsp⟩ : ∃ sp, 64 - b.size = sp := ⟨_, rfl⟩
        obtain ⟨k, hk⟩ : ∃ k, n - sp = k := ⟨_, rfl⟩
        have hnk : n = sp + k := by omega
        have h64 : (64 : Nat) = b.size + sp := by omega
        have hfit2 : ¬ (n ≤ sp) := by omega
        simp only [sumSizes_append, bitsOf_append, sumSizes, bitsOf, ofData, BitBlock.PushLow,
          GetSpare, MAX_NUM_BITS, hsp, hfit2, if_false, Int.toNat_ofNat, Nat.mod_mod, Nat.add_zero,
          Nat.pow_zero, Nat.mul_one, true_and, hk]
        refine ⟨by omega, ?_⟩
        have hd : data % 2 ^ n / 2 ^ k < 2 ^ sp := by
          rw [Nat.div_lt_iff_lt_mul (Nat.two_pow_pos _), ← Nat.pow_add, ← hnk]
          exact Nat.mod_lt _ (Nat.two_pow_pos _)
        have e1 : (b.data * 2 ^ sp + data % 2 ^ n / 2 ^ k) % 2 ^ 64
            = (b.data % 2 ^ b.size) * 2 ^ sp + data % 2 ^ n / 2 ^ k := by
          rw [h64]; exact shl_add_mod_split _ _ _ _ hd
        have e2 := Nat.div_add_mod (data % 2 ^ n) (2 ^ k)
        rw [e1]
        generalize data % 2 ^ n = D at e2 ⊢
        conv_rhs => rw [← e2]
        rw [h64, hnk]
        simp only [Nat.pow_add]
        ring

/-- Effect of `PushHigh(data, size)` on the return value, the size field and the bit string. -/
theorem PushHigh_bits (s : BitDeque) (data : Nat) (size : Int)
    (hB : ∀ b ∈ s._blocks, b.size ≤ 64) (h1 : 1 ≤ size) (h64 : size ≤ 64) :
    (s.PushHigh data size).1 = BitBlock.empty ∧
    (s.PushHigh data size).2._size = s._size + size.toNat ∧
    sumSizes (s.PushHigh data size).2._blocks = sumSizes s._blocks + size.toNat ∧
    bitsOf (s.PushHigh data size).2._blocks
      = (data % 2 ^ size.toNat) * 2 ^ sumSizes s._blocks + bitsOf s._blocks := by
  obtain ⟨blocks, sz⟩ := s
  obtain ⟨n, rfl⟩ : ∃ n : Nat, size = (n : Int) := ⟨size.toNat, by omega⟩
  have hn1 : 0 < n := by omega
  have hn64 : n ≤ 64 := by omega
  simp only [Int.toNat_ofNat]
  cases blocks with
  | nil =>
    rw [PushHigh_nil _ _ _ hn1]
    simp [sumSizes, bitsOf, ofData]
  | cons b rest =>
    have hb := hB b (List.mem_cons_self _ _)
    by_cases hfull : b.size = 64
    · rw [PushHigh_full _ _ _ _ _ hn1 hfull]
      simp only [sumSizes, bitsOf, ofData, Int.toNat_ofNat, Nat.mod_mod, true_and, and_true]
      omega
    · by_cases hfit : n ≤ 64 - b.size
      · rw [PushHigh_fit _ _ _ _ _ hn1 hfull hfit]
        simp only [sumSizes, bitsOf, ofData, BitBlock.PushHigh,
          GetSpare, MAX_NUM_BITS, hfit, if_true, Int.toNat_ofNat, Nat.mod_mod, true_and]
        refine ⟨by omega, ?_⟩
        rw [Nat.add_comm b.size n,
          shl_add_mod_split _ _ _ _ (Nat.mod_lt _ (Nat.two_pow_pos _)), Nat.mod_mod, Nat.pow_add]
        ring
      · have hover : 64 - b.size < n := by omega
        rw [PushHigh_over _ _ _ _ _ hn1 hfull hover]
        obtain ⟨sp, hsp⟩ : ∃ sp, 64 - b.size = sp := ⟨_, rfl⟩
        obtain ⟨k, hk⟩ : ∃ k, n - sp = k := ⟨_, rfl⟩
        have hnk : n = k + sp := by omega
        have h64 : (64 : Nat) = sp + b.size := by omega
        have hfit2 : ¬ (n ≤ sp) := by omega
        simp only [sumSizes, bitsOf, ofData, BitBlock.PushHigh,
          GetSpare, MAX_NUM_BITS, hsp, hfit2, if_false, Int.toNat_ofNat, Nat.mod_mod, true_and, hk]
        refine ⟨by omega, ?_⟩
        have hd : data % 2 ^ n / 2 ^ sp < 2 ^ k := by
          rw [Nat.div_lt_iff_lt_mul (Nat.two_pow_pos _), ← Nat.pow_add, ← hnk]
          exact Nat.mod_lt _ (Nat.two_pow_pos _)
        have e1 : (data % 2 ^ n % 2 ^ sp * 2 ^ b.size + b.data % 2 ^ b.size) % 2 ^ 64
            = (data % 2 ^ n % 2 ^ sp) * 2 ^ b.size + b.data % 2 ^ b.size := by
          rw [h64, shl_add_mod_split _ _ _ _ (Nat.mod_lt _ (Nat.two_pow_pos _)), Nat.mod_mod]
        have e2 := Nat.div_add_mod (data % 2 ^ n) (2 ^ sp)
        rw [e1, Nat.mod_eq_of_lt hd]
        generalize data % 2 ^ n = D at e2 ⊢
        conv_rhs => rw [← e2]
        rw [h64]
        simp only [Nat.pow_add]
        ring

/-- Block level: a value no larger than the spare capacity is taken whole, without overflow. -/
theorem BitBlock_PushLow_fit (b v : BitBlock) (h : v.GetSize ≤ b.GetSpare) :
    (b.PushLow v).1 = BitBlock.empty ∧ (b.PushLow v).2.size = b.size + v.size := by
  simp only [GetSize] at h
  simp [BitBlock.PushLow, h]

/-- The scan loop of `Defragment` returns when the index reaches the last block. -/
theorem defragLoop_exit (blocks : List BitBlock) (i : Nat) (h : ¬ i + 1 < blocks.length) :
    defragLoop blocks i = (blocks, i) := by
  rw [defragLoop]; simp [h]

/-- The scan loop of `Defragment` advances when the next block does not fit. -/
theorem defragLoop_advance (blocks : List BitBlock) (i : Nat) (h : i + 1 < blocks.length)
    (hc : ¬ blocks[i].GetSpare ≥ blocks[i + 1].GetSize) :
    defragLoop blocks i = defragLoop blocks (i + 1) := by
  rw [defragLoop]; simp only [h, dite_true, hc, if_false]

/-- The scan loop of `Defragment` merges the next block and stays at the same index. -/
theorem defragLoop_merge (blocks : List BitBlock) (i : Nat) (h : i + 1 < blocks.length)
    (hc : blocks[i].GetSpare ≥ blocks[i + 1].GetSize) :
    defragLoop blocks i
      = defragLoop ((blocks.set i (blocks[i].PushLow blocks[i + 1]).2).eraseIdx (i + 1)) i := by
  have he := (BitBlock_PushLow_fit blocks[i] blocks[i + 1] hc).1
  rw [defragLoop]
  simp only [h, dite_true, hc, if_true, he, BitBlock.IsEmpty, BitBlock.empty]
  simp

/-- Replacing block `i` by one at least as large and erasing block `i + 1` keeps the pairs
below `i` unmergeable. -/
theorem noMergeBelow_set_erase (blocks : List BitBlock) (i : Nat) (m : BitBlock)
    (h : i + 1 < blocks.length) (hm : blocks[i].size ≤ m.size) (hinv : NoMergeBelow blocks i) :
    NoMergeBelow ((blocks.set i m).eraseIdx (i + 1)) i := by
  intro j hj hlen
  have hj1 := hinv j hj (by omega)
  rw [List.getElem_eraseIdx_of_lt _ _ _ _ (by omega),
    List.getElem_eraseIdx_of_lt _ _ _ _ (by omega), List.getElem_set, List.getElem_set]
  have hji : ¬ i = j := by omega
  simp only [hji, if_false]
  by_cases hji1 : i = j + 1
  · subst hji1
    simp only [if_true, GetSize]
    simp only [GetSize] at hj1
    omega
  · simp only [hji1, if_false]
    exact hj1

/-- A merge at index `i` keeps the pairs below `i` unmergeable. -/
theorem noMergeBelow_merge (blocks : List BitBlock) (i : Nat) (h : i + 1 < blocks.length)
    (hc : blocks[i].GetSpare ≥ blocks[i + 1].GetSize) (hinv : NoMergeBelow blocks i) :
    NoMergeBelow ((blocks.set i (blocks[i].PushLow blocks[i + 1]).2).eraseIdx (i + 1)) i :=
  noMergeBelow_set_erase blocks i _ h
    (by rw [(BitBlock_PushLow_fit blocks[i] blocks[i + 1] hc).2]; exact Nat.le_add_right _ _) hinv

/-- When the scan loop returns, no adjacent pair of the list can be merged. -/
theorem defragLoop_noMerge (blocks : List BitBlock) (i : Nat) (hinv : NoMergeBelow blocks i) :
    NoMergeBelow (defragLoop blocks i).1 (defragLoop blocks i).1.length := by
  induction blocks, i using defragLoop.induct with
  | case1 blocks i h current next hc r overflow blocks1 hov ih =>
    exact absurd (by simp [overflow, r, (BitBlock_PushLow_fit current next hc).1, BitBlock.IsEmpty,
      BitBlock.empty]) hov
  | case2 blocks i h current next hc r overflow blocks1 hov ih =>
    rw [defragLoop_merge blocks i h hc]
    exact ih (noMergeBelow_merge blocks i h hc hinv)
  | case3 blocks i h current next hc ih =>
    rw [defragLoop_advance blocks i h hc]
    apply ih
    intro j hj hlen
    by_cases hji : j = i
    · subst hji
      exact Nat.lt_of_not_ge hc
    · exact hinv j (by omega) hlen
  | case4 blocks i h =>
    rw [defragLoop_exit blocks i h]
    intro j _ hlen
    have hlen2 : j + 1 < blocks.length := hlen
    exact hinv j (by omega) hlen

/-- A bound on all block sizes survives replacing one block and erasing another. -/
theorem sizes_le_set_erase (blocks : List BitBlock) (i : Nat) (m : BitBlock) (c : Nat)
    (hm : m.size ≤ c) (hs : ∀ b ∈ blocks, b.size ≤ c) :
    ∀ b ∈ (blocks.set i m).eraseIdx (i + 1), b.size ≤ c := by
  intro b hb
  rcases List.mem_or_eq_of_mem_set (List.mem_of_mem_eraseIdx hb) with h | h
  · exact hs b h
  · rw [h]; exact hm

/-- The scan loop of `Defragment` never builds a block above the capacity. -/
theorem defragLoop_sizes_le (blocks : List BitBlock) (i : Nat)
    (hs : ∀ b ∈ blocks, b.size ≤ MAX_NUM_BITS) :
    ∀ b ∈ (defragLoop blocks i).1, b.size ≤ MAX_NUM_BITS := by
  induction blocks, i using defragLoop.induct with
  | case1 blocks i h current next hc r overflow blocks1 hov ih =>
    exact absurd (by simp [overflow, r, (BitBlock_PushLow_fit current next hc).1, BitBlock.IsEmpty,
      BitBlock.empty]) hov
  | case2 blocks i h current next hc r overflow blocks1 hov ih =>
    rw [defragLoop_merge blocks i h hc]
    apply ih
    apply sizes_le_set_erase _ _ _ _ _ hs
    have h1 := hs blocks[i] (List.getElem_mem _)
    rw [(BitBlock_PushLow_fit blocks[i] blocks[i + 1] hc).2]
    have hc2 : blocks[i + 1].size ≤ MAX_NUM_BITS - blocks[i].size := hc
    omega
  | case3 blocks i h current next hc ih =>
    rw [defragLoop_advance blocks i h hc]
    exact ih hs
  | case4 blocks i h =>
    rw [defragLoop_exit blocks i h]
    exact hs

/-! ## The size invariant -/

/-- C1: on the one-block state holding the two bits `11` (invariants A and B hold),
`Insert` of a one-bit block at the interior address 1 raises the size field to 3 while the
block list still holds 2 bits, and `Remove(1, 0)` lowers the size field to 1 while the
block list still holds 2 bits: invariant A is lost in both cases. -/
theorem Insert_Remove_break_InvA :
    InvA ⟨[⟨3, 2⟩], 2⟩ ∧ InvB ⟨[⟨3, 2⟩], 2⟩ ∧
    Insert ⟨[⟨3, 2⟩], 2⟩ ⟨1, 1⟩ 1 = ⟨[⟨3, 2⟩], 3⟩ ∧
    ¬ InvA (Insert ⟨[⟨3, 2⟩], 2⟩ ⟨1, 1⟩ 1) ∧
    (Remove ⟨[⟨3, 2⟩], 2⟩ 1 0).2 = ⟨[⟨3, 2⟩], 1⟩ ∧
    ¬ InvA (Remove ⟨[⟨3, 2⟩], 2⟩ 1 0).2 := by
  decide

/-! ## Round trips at the two ends -/

/-- C2: in a state satisfying invariants A and B, `PushLow(v)` of a value of 1 to 64 bits
followed by `PopLow(v.size)` gives back the size field, the list of block sizes and the
meaningful bits of every block. -/
theorem PushLow_PopLow_roundtrip (s : BitDeque) (v : BitBlock) (_hA : s.InvA) (hB : s.InvB)
    (hv1 : 1 ≤ v.size) (hv64 : v.size ≤ 64) :
    SameLayout ((s.PushLowBlock v).2.PopLow v.GetSize).2 s := by
  have h := PushLow_PopLow_state s v.GetData v.GetSize hB
    (by simp only [GetSize]; omega) (by simp only [GetSize]; omega)
  unfold PushLowBlock
  rcases h with h | ⟨init, last, hs, h⟩
  · rw [h]; exact ⟨rfl, rfl, rfl⟩
  · rw [h]
    simp [SameLayout, hs, GetSize, GetData]

/-- C3: in a state satisfying invariants A and B, `PushHigh(v)` of a value of 1 to 64 bits
followed by `PopHigh(v.size)` gives back the size field, the list of block sizes and the
meaningful bits of every block. -/
theorem PushHigh_PopHigh_roundtrip (s : BitDeque) (v : BitBlock) (_hA : s.InvA) (hB : s.InvB)
    (hv1 : 1 ≤ v.size) (hv64 : v.size ≤ 64) :
    SameLayout ((s.PushHighBlock v).2.PopHigh v.GetSize).2 s := by
  have h := PushHigh_PopHigh_state s v.GetData v.GetSize hB
    (by simp only [GetSize]; omega) (by simp only [GetSize]; omega)
  unfold PushHighBlock
  rcases h with h | ⟨first, rest, hs, h⟩
  · rw [h]; exact ⟨rfl, rfl, rfl⟩
  · rw [h]
    simp [SameLayout, hs, GetSize, GetData]

/-- C2 at a concrete input: a 60-bit block receives an 8-bit value, which fills the block
and overflows into a second one, and the pop undoes both steps. -/
theorem PushLow_PopLow_roundtrip_witness :
    InvA ⟨[⟨5, 60⟩], 60⟩ ∧ InvB ⟨[⟨5, 60⟩], 60⟩ ∧
    SameLayout (((BitDeque.mk [⟨5, 60⟩] 60).PushLowBlock ⟨171, 8⟩).2.PopLow
      (BitBlock.mk 171 8).GetSize).2 ⟨[⟨5, 60⟩], 60⟩ :=
  ⟨by decide, by decide,
   PushLow_PopLow_roundtrip ⟨[⟨5, 60⟩], 60⟩ ⟨171, 8⟩ (by decide) (by decide) (by decide)
     (by decide)⟩

/-- C3 at a concrete input: a 60-bit block receives an 8-bit value at the high end, which
fills the block and overflows into a new front block, and the pop undoes both steps. -/
theorem PushHigh_PopHigh_roundtrip_witness :
    InvA ⟨[⟨5, 60⟩], 60⟩ ∧ InvB ⟨[⟨5, 60⟩], 60⟩ ∧
    SameLayout (((BitDeque.mk [⟨5, 60⟩] 60).PushHighBlock ⟨171, 8⟩).2.PopHigh
      (BitBlock.mk 171 8).GetSize).2 ⟨[⟨5, 60⟩], 60⟩ :=
  ⟨by decide, by decide,
   PushHigh_PopHigh_roundtrip ⟨[⟨5, 60⟩], 60⟩ ⟨171, 8⟩ (by decide) (by decide) (by decide)
     (by decide)⟩

/-! ## Addressed access, insertion and removal -/

/-- C4: on two one-bit blocks `1`, `1` (size 2), `SetBits(0, 2, 0)` asks for the range
`[0, 2)`, which crosses the block boundary; the write is rejected by the first block, the
state is unchanged, and `GetBits(0)` capped to 2 bits is the single bit `1`, not the two
bits `00` that were written. -/
theorem SetBits_GetBits_across_blocks :
    InvA ⟨[⟨1, 1⟩, ⟨1, 1⟩], 2⟩ ∧ InvB ⟨[⟨1, 1⟩, ⟨1, 1⟩], 2⟩ ∧
    ((BitDeque.mk [⟨1, 1⟩, ⟨1, 1⟩] 2).SetBits 0 2 0).2 = ⟨[⟨1, 1⟩, ⟨1, 1⟩], 2⟩ ∧
    ((((BitDeque.mk [⟨1, 1⟩, ⟨1, 1⟩] 2).SetBits 0 2 0).2.GetBits 0).PopLow 2).1 = ⟨1, 1⟩ ∧
    ((((BitDeque.mk [⟨1, 1⟩, ⟨1, 1⟩] 2).SetBits 0 2 0).2.GetBits 0).PopLow 2).1
      ≠ BitBlock.ofData 0 2 := by
  decide

/-- C5: (i) on one 1-bit block `0`, `Insert` of the bit `1` at address 1 followed by
`Remove(1, 1)` returns the placeholder bit `0` and leaves the two bits `01` in the block
list under a size field of 1; (ii) on two full blocks, `Insert` of 2 bits at the interior
address 63 followed by `Remove(2, 63)` leaves the size field at 130 instead of 128. -/
theorem Insert_Remove_not_inverse :
    (Remove (Insert ⟨[⟨0, 1⟩], 1⟩ ⟨1, 1⟩ 1) 1 1) = (⟨0, 1⟩, ⟨[⟨1, 2⟩], 1⟩) ∧
    sumSizes (Remove (Insert ⟨[⟨0, 1⟩], 1⟩ ⟨1, 1⟩ 1) 1 1).2._blocks = 2 ∧
    bitsOf (Remove (Insert ⟨[⟨0, 1⟩], 1⟩ ⟨1, 1⟩ 1) 1 1).2._blocks = 1 ∧
    bitsOf (BitDeque.mk [⟨0, 1⟩] 1)._blocks = 0 ∧
    (Remove (Insert ⟨[⟨0, 64⟩, ⟨0, 64⟩], 128⟩ ⟨3, 2⟩ 63) 2 63).2
      = ⟨[⟨0, 64⟩, ⟨0, 64⟩], 130⟩ := by
  have hd : Defragment ⟨[⟨0, 64⟩, ⟨0, 64⟩], 130⟩ = ⟨[⟨0, 64⟩, ⟨0, 64⟩], 130⟩ := by
    unfold Defragment
    rw [defragLoop_advance _ _ (by decide) (by decide), defragLoop_exit _ _ (by decide)]
    rfl
  have hi : Insert ⟨[⟨0, 64⟩, ⟨0, 64⟩], 128⟩ ⟨3, 2⟩ 63 = ⟨[⟨0, 64⟩, ⟨0, 64⟩], 130⟩ := by
    rw [← hd]; rfl
  refine ⟨by decide, by decide, by decide, by decide, ?_⟩
  rw [hi]
  have hr : Remove ⟨[⟨0, 64⟩, ⟨0, 64⟩], 130⟩ 2 63
      = (BitBlock.empty, Defragment ⟨[⟨0, 64⟩, ⟨0, 64⟩], 130⟩) := by
    simp [Remove, removeScan, BitBlock.GetSize]
  rw [hr, hd]

/-- C6: on two one-bit blocks `1`, `1` (size 2), `GetBits(0)` returns the single bit of the
first block, although `min(size - addr, 64) = 2` bits lie from address 0 onward. -/
theorem GetBits_stops_at_block_boundary :
    InvA ⟨[⟨1, 1⟩, ⟨1, 1⟩], 2⟩ ∧ InvB ⟨[⟨1, 1⟩, ⟨1, 1⟩], 2⟩ ∧
    (BitDeque.mk [⟨1, 1⟩, ⟨1, 1⟩] 2).GetBits 0 = ⟨1, 1⟩ ∧
    ((BitDeque.mk [⟨1, 1⟩, ⟨1, 1⟩] 2).GetBits 0).GetSize
      ≠ min ((BitDeque.mk [⟨1, 1⟩, ⟨1, 1⟩] 2)._size - 0) 64 := by
  decide

/-! ## Pushing and popping -/

/-- C7: in a state satisfying invariants A and B, `PushLow(v)` and `PushHigh(v)` of a value
of 1 to 64 bits return an empty block, raise the size field by `v.size`, lengthen the
logical bit string by `v.size` bits, and the new bit string is the old one with the bits of
`v` below it (`PushLow`) or above it (`PushHigh`). -/
theorem Push_never_overflows (s : BitDeque) (v : BitBlock) (_hA : s.InvA) (hB : s.InvB)
    (hv1 : 1 ≤ v.size) (hv64 : v.size ≤ 64) :
    ((s.PushLowBlock v).1 = BitBlock.empty ∧
      (s.PushLowBlock v).2._size = s._size + v.size ∧
      sumSizes (s.PushLowBlock v).2._blocks = sumSizes s._blocks + v.size ∧
      bitsOf (s.PushLowBlock v).2._blocks = bitsOf s._blocks * 2 ^ v.size + v.GetData) ∧
    ((s.PushHighBlock v).1 = BitBlock.empty ∧
      (s.PushHighBlock v).2._size = s._size + v.size ∧
      sumSizes (s.PushHighBlock v).2._blocks = sumSizes s._blocks + v.size ∧
      bitsOf (s.PushHighBlock v).2._blocks
        = v.GetData * 2 ^ sumSizes s._blocks + bitsOf s._blocks) := by
  have hB2 : ∀ b ∈ s._blocks, b.size ≤ 64 := fun b hb => (hB b hb).2
  have hl := PushLow_bits s v.GetData v.GetSize hB2
    (by simp only [GetSize]; omega) (by simp only [GetSize]; omega)
  have hh := PushHigh_bits s v.GetData v.GetSize hB2
    (by simp only [GetSize]; omega) (by simp only [GetSize]; omega)
  have e : v.GetData % 2 ^ v.size = v.GetData := by simp [GetData]
  simp only [GetSize, Int.toNat_ofNat, e] at hl hh
  exact ⟨hl, hh⟩

/-- C7 at a concrete input: an 8-bit value pushed onto a single 60-bit block, which makes
the outer block overflow into a new one at either end. -/
theorem Push_never_overflows_witness :
    InvA ⟨[⟨5, 60⟩], 60⟩ ∧ InvB ⟨[⟨5, 60⟩], 60⟩ ∧
    (((BitDeque.mk [⟨5, 60⟩] 60).PushLowBlock ⟨171, 8⟩).1 = BitBlock.empty ∧
      ((BitDeque.mk [⟨5, 60⟩] 60).PushLowBlock ⟨171, 8⟩).2._size
        = (BitDeque.mk [⟨5, 60⟩] 60)._size + (BitBlock.mk 171 8).size ∧
      sumSizes ((BitDeque.mk [⟨5, 60⟩] 60).PushLowBlock ⟨171, 8⟩).2._blocks
        = sumSizes (BitDeque.mk [⟨5, 60⟩] 60)._blocks + (BitBlock.mk 171 8).size ∧
      bitsOf ((BitDeque.mk [⟨5, 60⟩] 60).PushLowBlock ⟨171, 8⟩).2._blocks
        = bitsOf (BitDeque.mk [⟨5, 60⟩] 60)._blocks * 2 ^ (BitBlock.mk 171 8).size
          + (BitBlock.mk 171 8).GetData) ∧
    (((BitDeque.mk [⟨5, 60⟩] 60).PushHighBlock ⟨171, 8⟩).1 = BitBlock.empty ∧
      ((BitDeque.mk [⟨5, 60⟩] 60).PushHighBlock ⟨171, 8⟩).2._size
        = (BitDeque.mk [⟨5, 60⟩] 60)._size + (BitBlock.mk 171 8).size ∧
      sumSizes ((BitDeque.mk [⟨5, 60⟩] 60).PushHighBlock ⟨171, 8⟩).2._blocks
        = sumSizes (BitDeque.mk [⟨5, 60⟩] 60)._blocks + (BitBlock.mk 171 8).size ∧
      bitsOf ((BitDeque.mk [⟨5, 60⟩] 60).PushHighBlock ⟨171, 8⟩).2._blocks
        = (BitBlock.mk 171 8).GetData * 2 ^ sumSizes (BitDeque.mk [⟨5, 60⟩] 60)._blocks
          + bitsOf (BitDeque.mk [⟨5, 60⟩] 60)._blocks) :=
  ⟨by decide, by decide,
   Push_never_overflows ⟨[⟨5, 60⟩], 60⟩ ⟨171, 8⟩ (by decide) (by decide) (by decide)
     (by decide)⟩

/-- C8: on two full blocks (size 128), `PopLow(65)` returns a 64-bit block while the size
field and the block list lose 65 bits, and `PopHigh(65)` does the same at the other end:
one bit leaves the sequence without being returned. -/
theorem Pop_over_64_drops_bits :
    InvA ⟨[⟨5, 64⟩, ⟨7, 64⟩], 128⟩ ∧ InvB ⟨[⟨5, 64⟩, ⟨7, 64⟩], 128⟩ ∧
    (BitDeque.mk [⟨5, 64⟩, ⟨7, 64⟩] 128).PopLow 65 = (⟨7, 64⟩, ⟨[⟨2, 63⟩], 63⟩) ∧
    (BitDeque.mk [⟨5, 64⟩, ⟨7, 64⟩] 128).PopHigh 65
      = (⟨5, 64⟩, ⟨[⟨7, 63⟩], 63⟩) := by
  refine ⟨by decide, by decide, ?_, ?_⟩
  · simp [BitDeque.PopLow, popLowLoop, BitBlock.GetSize, BitBlock.PushHigh, BitBlock.PopLow,
      BitBlock.GetSpare, BitBlock.MAX_NUM_BITS, BitBlock.IsEmpty, BitBlock.empty]
  · simp [BitDeque.PopHigh, popHighLoop, BitBlock.GetSize, BitBlock.PushLow, BitBlock.PopHigh,
      BitBlock.GetSpare, BitBlock.MAX_NUM_BITS, BitBlock.IsEmpty, BitBlock.empty]

/-- C9: on the one-block state holding the two bits `11`, `Remove(1, 0)` returns the
placeholder bit `0` although the bit at address 0 is `1`, and the block list still holds
both bits under a size field of 1. -/
theorem Remove_returns_placeholder :
    InvA ⟨[⟨3, 2⟩], 2⟩ ∧ InvB ⟨[⟨3, 2⟩], 2⟩ ∧
    ((BitDeque.mk [⟨3, 2⟩] 2).GetBits 0).PopLow 1 = (⟨1, 1⟩, ⟨1, 1⟩) ∧
    (BitDeque.mk [⟨3, 2⟩] 2).Remove 1 0 = (⟨0, 1⟩, ⟨[⟨3, 2⟩], 1⟩) ∧
    (BitDeque.mk [⟨3, 2⟩] 2).RemoveCount 1 0 = (1, ⟨[⟨3, 2⟩], 1⟩) := by
  decide

/-! ## Defragmentation -/

/-- C10: after `Defragment()` on a block list with block sizes in `0..64`, every block
still has at most 64 bits and no block has spare capacity (64 minus its size) for the whole
block that follows it. -/
theorem Defragment_no_mergeable_pair (s : BitDeque)
    (hs : ∀ b ∈ s._blocks, b.size ≤ BitBlock.MAX_NUM_BITS) (i : Nat) (left right : BitBlock)
    (hl : (Defragment s)._blocks[i]? = some left)
    (hr : (Defragment s)._blocks[i + 1]? = some right) :
    left.size ≤ 64 ∧ right.size ≤ 64 ∧ ¬ (left.GetSpare ≥ right.GetSize) := by
  have key : NoMergeBelow (Defragment s)._blocks (Defragment s)._blocks.length := by
    unfold Defragment
    split
    · intro j _ hlen
      omega
    · exact defragLoop_noMerge s._blocks 0 (fun j hj => absurd hj (Nat.not_lt_zero j))
  have hsz : ∀ b ∈ (Defragment s)._blocks, b.size ≤ BitBlock.MAX_NUM_BITS := by
    unfold Defragment
    split
    · exact hs
    · exact defragLoop_sizes_le s._blocks 0 hs
  obtain ⟨h1, e1⟩ := List.getElem?_eq_some.mp hl
  obtain ⟨h2, e2⟩ := List.getElem?_eq_some.mp hr
  have := key i (by omega) h2
  rw [e1, e2] at this
  refine ⟨?_, ?_, Nat.not_le_of_lt this⟩
  · rw [← e1]; exact hsz _ (List.getElem_mem _)
  · rw [← e2]; exact hsz _ (List.getElem_mem _)

/-- C10 at a concrete input: a 4-bit, a 60-bit and a 30-bit block become a full block
followed by the 30-bit block, and the full block has no room for its neighbour. -/
theorem Defragment_no_mergeable_pair_witness :
    (∀ b ∈ (BitDeque.mk [⟨5, 4⟩, ⟨7, 60⟩, ⟨9, 30⟩] 94)._blocks, b.size ≤ BitBlock.MAX_NUM_BITS) ∧
    (Defragment ⟨[⟨5, 4⟩, ⟨7, 60⟩, ⟨9, 30⟩], 94⟩)._blocks[0]? = some ⟨5 * 2 ^ 60 + 7, 64⟩ ∧
    (Defragment ⟨[⟨5, 4⟩, ⟨7, 60⟩, ⟨9, 30⟩], 94⟩)._blocks[0 + 1]? = some ⟨9, 30⟩ ∧
    ((BitBlock.mk (5 * 2 ^ 60 + 7) 64).size ≤ 64 ∧ (BitBlock.mk 9 30).size ≤ 64 ∧
      ¬ ((BitBlock.mk (5 * 2 ^ 60 + 7) 64).GetSpare ≥ (BitBlock.mk 9 30).GetSize)) := by
  have hd : Defragment ⟨[⟨5, 4⟩, ⟨7, 60⟩, ⟨9, 30⟩], 94⟩
      = ⟨[⟨5 * 2 ^ 60 + 7, 64⟩, ⟨9, 30⟩], 94⟩ := by
    unfold Defragment
    rw [defragLoop_merge _ _ (by decide) (by decide),
      defragLoop_advance _ _ (by decide) (by decide), defragLoop_exit _ _ (by decide)]
    decide
  have h0 : (Defragment ⟨[⟨5, 4⟩, ⟨7, 60⟩, ⟨9, 30⟩], 94⟩)._blocks[0]?
      = some ⟨5 * 2 ^ 60 + 7, 64⟩ := by rw [hd]; rfl
  have h1 : (Defragment ⟨[⟨5, 4⟩, ⟨7, 60⟩, ⟨9, 30⟩], 94⟩)._blocks[0 + 1]?
      = some ⟨9, 30⟩ := by rw [hd]; rfl
  exact ⟨by decide, h0, h1,
    Defragment_no_mergeable_pair ⟨[⟨5, 4⟩, ⟨7, 60⟩, ⟨9, 30⟩], 94⟩ (by decide) 0 _ _ h0 h1⟩

/-! ## Defragmentation: idempotence -/

/-- On a list without any mergeable pair the scan loop of `Defragment` changes nothing. -/
theorem defragLoop_fixed (blocks : List BitBlock) (i : Nat)
    (hinv : NoMergeBelow blocks blocks.length) : (defragLoop blocks i).1 = blocks := by
  induction blocks, i using defragLoop.induct with
  | case1 blocks i h current next hc r overflow blocks1 hov ih =>
    exact absurd hc (Nat.not_le_of_lt (hinv i (by omega) h))
  | case2 blocks i h current next hc r overflow blocks1 hov ih =>
    exact absurd hc (Nat.not_le_of_lt (hinv i (by omega) h))
  | case3 blocks i h current next hc ih =>
    rw [defragLoop_advance blocks i h hc]
    exact ih hinv
  | case4 blocks i h =>
    rw [defragLoop_exit blocks i h]

/-- After `Defragment` no adjacent pair of the block list can be merged. -/
theorem Defragment_noMerge (s : BitDeque) :
    NoMergeBelow (Defragment s)._blocks (Defragment s)._blocks.length := by
  unfold Defragment
  split
  · intro j _ hlen
    omega
  · exact defragLoop_noMerge s._blocks 0 (fun j hj => absurd hj (Nat.not_lt_zero j))

/-- C11: `Defragment()` called twice in a row gives the state that one call gives. -/
theorem Defragment_idempotent (s : BitDeque) :
    Defragment (Defragment s) = Defragment s := by
  have h := defragLoop_fixed (Defragment s)._blocks 0 (Defragment_noMerge s)
  rw [Defragment.eq_def (Defragment s)]
  split
  · rfl
  · rw [h]

/-! ## Requests that do not apply -/

/-- C12: (i) when `addr ≥ _size` or the block list is empty, `GetBits(addr)` and
`Remove(count, addr)` return an empty block (the counting overload of `Remove` returns 0)
and `SetBits(data, count, addr)` returns the
block built from its input `(data, count)`, holding `count` bits equal to the low bits of
`data`; (ii) when `count ≤ 0`, `PushLow`, `PushHigh`, `PopLow`, `PopHigh` and `Remove`
return an empty block.  In every case the state after the call is the state before it. -/
theorem Inapplicable_requests_no_effect (s : BitDeque) (data : Nat) (count : Int)
    (addr n : Nat) :
    ((addr ≥ s._size ∨ s._blocks = []) →
      s.GetBits addr = BitBlock.empty ∧
      s.Remove count addr = (BitBlock.empty, s) ∧
      s.RemoveCount n addr = (0, s) ∧
      s.SetBits data count addr = (BitBlock.ofData data count, s) ∧
      (s.SetBits data count addr).1.GetSize = count.toNat ∧
      (s.SetBits data count addr).1.GetData = data % 2 ^ count.toNat) ∧
    (count ≤ 0 →
      s.PushLow data count = (BitBlock.empty, s) ∧
      s.PushHigh data count = (BitBlock.empty, s) ∧
      s.PopLow count = (BitBlock.empty, s) ∧
      s.PopHigh count = (BitBlock.empty, s) ∧
      s.Remove count addr = (BitBlock.empty, s)) := by
  constructor
  · intro h
    have h1 : addr ≥ s._size ∨ s._blocks.isEmpty = true := by
      rcases h with h | h
      · exact Or.inl h
      · exact Or.inr (by simp [h])
    have hset : s.SetBits data count addr = (BitBlock.ofData data count, s) := by
      rcases h1 with h1 | h1 <;> simp [SetBits, h1]
    have hrem : ∀ c : Int, s.Remove c addr = (BitBlock.empty, s) := by
      intro c
      rcases h1 with h1 | h1 <;> simp [Remove, h1]
    refine ⟨?_, hrem count, ?_, hset, ?_, ?_⟩
    · rcases h1 with h1 | h1 <;> simp [GetBits, h1]
    · unfold RemoveCount
      split
      · rfl
      · rw [hrem]; rfl
    · rw [hset]; simp [ofData, GetSize]
    · rw [hset]; simp [ofData, GetData]
  · intro h
    refine ⟨?_, ?_, ?_, ?_, ?_⟩
    · simp [PushLow, h]
    · simp [PushHigh, h]
    · simp [PopLow, h]
    · simp [PopHigh, h]
    · simp [Remove, h]

/-- C12 at a concrete input: a one-block state of 2 bits, the address 2 past its end and
the count -1. -/
theorem Inapplicable_requests_no_effect_witness :
    ((2 : Nat) ≥ (BitDeque.mk [⟨3, 2⟩] 2)._size ∨ (BitDeque.mk [⟨3, 2⟩] 2)._blocks = []) ∧
    (-1 : Int) ≤ 0 ∧
    (BitDeque.mk [⟨3, 2⟩] 2).GetBits 2 = BitBlock.empty ∧
    (BitDeque.mk [⟨3, 2⟩] 2).SetBits 7 (-1) 2 = (BitBlock.ofData 7 (-1), ⟨[⟨3, 2⟩], 2⟩) ∧
    (BitDeque.mk [⟨3, 2⟩] 2).PopLow (-1) = (BitBlock.empty, ⟨[⟨3, 2⟩], 2⟩) :=
  ⟨by decide, by decide,
   ((Inapplicable_requests_no_effect ⟨[⟨3, 2⟩], 2⟩ 7 (-1) 2 1).1 (by decide)).1,
   ((Inapplicable_requests_no_effect ⟨[⟨3, 2⟩], 2⟩ 7 (-1) 2 1).1 (by decide)).2.2.2.1,
   ((Inapplicable_requests_no_effect ⟨[⟨3, 2⟩], 2⟩ 7 (-1) 2 1).2 (by decide)).2.2.1⟩

/-! ## The block size invariant -/

/-- The address scan of `SetBits` keeps the size of every block. -/
theorem setBitsScan_sizes (blocks : List BitBlock) (cur data : Nat) (size : Int) (addr : Nat)
    (P : Nat → Prop) (h : ∀ b ∈ blocks, P b.size) :
    ∀ b ∈ (setBitsScan blocks cur data size addr).2, P b.size := by
  induction blocks generalizing cur with
  | nil => simp [setBitsScan]
  | cons x xs ih =>
    have hx := h x (List.mem_cons_self _ _)
    have hxs : ∀ b ∈ xs, P b.size := fun b hb => h b (List.mem_cons_of_mem _ hb)
    rw [setBitsScan]
    split
    · intro b hb
      rcases List.mem_cons.mp hb with rfl | hb
      · have : (x.SetBits data size.toNat (addr - cur)).2.size = x.size := by
          unfold BitBlock.SetBits; split <;> rfl
        rw [this]; exact hx
      · exact hxs b hb
    · intro b hb
      rcases List.mem_cons.mp hb with rfl | hb
      · exact hx
      · exact ih _ hxs b hb

/-- Invariant B after `SetBits`. -/
theorem SetBits_InvB (s : BitDeque) (hB : s.InvB) (data : Nat) (size : Int) (addr : Nat) :
    InvB (s.SetBits data size addr).2 := by
  unfold SetBits
  split
  · exact hB
  · exact setBitsScan_sizes s._blocks 0 data size addr (fun n => 0 < n ∧ n ≤ MAX_NUM_BITS) hB

/-- Invariant B after `PushLow` of 1 to 64 bits. -/
theorem PushLow_InvB (s : BitDeque) (hB : s.InvB) (data : Nat) (size : Int)
    (h1 : 1 ≤ size) (h64 : size ≤ 64) : InvB (s.PushLow data size).2 := by
  obtain ⟨blocks, sz⟩ := s
  obtain ⟨n, rfl⟩ : ∃ n : Nat, size = (n : Int) := ⟨size.toNat, by omega⟩
  have hn1 : 0 < n := by omega
  have hn64 : n ≤ 64 := by omega
  have hnew : 0 < (ofData data n).size ∧ (ofData data n).size ≤ MAX_NUM_BITS := by
    simp [ofData, MAX_NUM_BITS]; omega
  rcases List.eq_nil_or_concat blocks with rfl | ⟨init, b, rfl⟩ <;>
    simp only [List.concat_eq_append] at *
  · rw [PushLow_nil _ _ _ hn1]
    intro x hx
    simp only [List.mem_singleton] at hx
    rw [hx]; exact hnew
  · have hb := hB b (by simp)
    have hinit : ∀ x ∈ init, 0 < x.size ∧ x.size ≤ MAX_NUM_BITS :=
      fun x hx => hB x (by simp [hx])
    simp only [MAX_NUM_BITS] at hb
    by_cases hfull : b.size = 64
    · rw [PushLow_full _ _ _ _ _ hn1 hfull]
      intro x hx
      simp only [List.mem_append, List.mem_singleton] at hx
      rcases hx with (hx | hx) | hx
      · exact hinit x hx
      · rw [hx]; simp [MAX_NUM_BITS, hfull]
      · rw [hx]; exact hnew
    · by_cases hfit : n ≤ 64 - b.size
      · rw [PushLow_fit _ _ _ _ _ hn1 hfull hfit]
        intro x hx
        simp only [List.mem_append, List.mem_singleton] at hx
        rcases hx with hx | hx
        · exact hinit x hx
        · rw [hx]
          simp [BitBlock.PushLow, GetSpare, ofData, hfit, MAX_NUM_BITS]
          omega
      · have hover : 64 - b.size < n := by omega
        rw [PushLow_over _ _ _ _ _ hn1 hfull hover]
        intro x hx
        simp only [List.mem_append, List.mem_singleton] at hx
        rcases hx with (hx | hx) | hx
        · exact hinit x hx
        · rw [hx]
          simp [BitBlock.PushLow, GetSpare, ofData, hfit, MAX_NUM_BITS]
        · rw [hx]
          simp [BitBlock.PushLow, GetSpare, ofData, hfit, MAX_NUM_BITS]
          omega

/-- Invariant B after `PushHigh` of 1 to 64 bits. -/
theorem PushHigh_InvB (s : BitDeque) (hB : s.InvB) (data : Nat) (size : Int)
    (h1 : 1 ≤ size) (h64 : size ≤ 64) : InvB (s.PushHigh data size).2 := by
  obtain ⟨blocks, sz⟩ := s
  obtain ⟨n, rfl⟩ : ∃ n : Nat, size = (n : Int) := ⟨size.toNat, by omega⟩
  have hn1 : 0 < n := by omega
  have hn64 : n ≤ 64 := by omega
  have hnew : 0 < (ofData data n).size ∧ (ofData data n).size ≤ MAX_NUM_BITS := by
    simp [ofData, MAX_NUM_BITS]; omega
  cases blocks with
  | nil =>
    rw [PushHigh_nil _ _ _ hn1]
    intro x hx
    simp only [List.mem_singleton] at hx
    rw [hx]; exact hnew
  | cons b rest =>
    have hb := hB b (List.mem_cons_self _ _)
    have hrest : ∀ x ∈ rest, 0 < x.size ∧ x.size ≤ MAX_NUM_BITS :=
      fun x hx => hB x (List.mem_cons_of_mem _ hx)
    simp only [MAX_NUM_BITS] at hb
    by_cases hfull : b.size = 64
    · rw [PushHigh_full _ _ _ _ _ hn1 hfull]
      intro x hx
      simp only [List.mem_cons] at hx
      rcases hx with hx | hx | hx
      · rw [hx]; exact hnew
      · rw [hx]; simp [MAX_NUM_BITS, hfull]
      · exact hrest x hx
    · by_cases hfit : n ≤ 64 - b.size
      · rw [PushHigh_fit _ _ _ _ _ hn1 hfull hfit]
        intro x hx
        simp only [List.mem_cons] at hx
        rcases hx with hx | hx
        · rw [hx]
          simp [BitBlock.PushHigh, GetSpare, ofData, hfit, MAX_NUM_BITS]
          omega
        · exact hrest x hx
      · have hover : 64 - b.size < n := by omega
        rw [PushHigh_over _ _ _ _ _ hn1 hfull hover]
        intro x hx
        simp only [List.mem_cons] at hx
        rcases hx with hx | hx | hx
        · rw [hx]
          simp [BitBlock.PushHigh, GetSpare, ofData, hfit, MAX_NUM_BITS]
          omega
        · rw [hx]
          simp [BitBlock.PushHigh, GetSpare, ofData, hfit, MAX_NUM_BITS]
        · exact hrest x hx

/-- The loop of `PopLow` leaves only blocks that satisfy invariant B. -/
theorem popLowLoop_InvB (blocks : List BitBlock) (sz rem : Nat) (result : BitBlock)
    (hB : ∀ b ∈ blocks, 0 < b.size ∧ b.size ≤ MAX_NUM_BITS) :
    ∀ b ∈ (popLowLoop blocks sz rem result).2.1, 0 < b.size ∧ b.size ≤ MAX_NUM_BITS := by
  induction blocks using List.reverseRecOn generalizing sz rem result with
  | nil => rw [popLowLoop_nil]; exact hB
  | append_singleton init b ih =>
    have hinit : ∀ x ∈ init, 0 < x.size ∧ x.size ≤ MAX_NUM_BITS :=
      fun x hx => hB x (by simp [hx])
    have hb := hB b (by simp)
    rcases Nat.eq_zero_or_pos rem with h0 | h0
    · rw [h0, popLowLoop_zero]; exact hB
    · by_cases hw : b.size ≤ rem
      · rw [popLowLoop_whole _ _ _ _ _ h0 hw]
        exact ih _ _ _ hinit
      · rw [popLowLoop_part _ _ _ _ _ h0 (by omega)]
        intro x hx
        simp only [List.mem_append, List.mem_singleton] at hx
        rcases hx with hx | hx
        · exact hinit x hx
        · rw [hx]
          simp only [BitBlock.PopLow]
          omega

/-- The loop of `PopHigh` leaves only blocks that satisfy invariant B. -/
theorem popHighLoop_InvB (blocks : List BitBlock) (sz rem : Nat) (result : BitBlock)
    (hB : ∀ b ∈ blocks, 0 < b.size ∧ b.size ≤ MAX_NUM_BITS) :
    ∀ b ∈ (popHighLoop blocks sz rem result).2.1, 0 < b.size ∧ b.size ≤ MAX_NUM_BITS := by
  induction blocks generalizing sz rem result with
  | nil => rw [popHighLoop_nil]; exact hB
  | cons b rest ih =>
    have hrest : ∀ x ∈ rest, 0 < x.size ∧ x.size ≤ MAX_NUM_BITS :=
      fun x hx => hB x (List.mem_cons_of_mem _ hx)
    have hb := hB b (List.mem_cons_self _ _)
    rcases Nat.eq_zero_or_pos rem with h0 | h0
    · rw [h0, popHighLoop_zero]; exact hB
    · by_cases hw : b.size ≤ rem
      · rw [popHighLoop_whole _ _ _ _ _ h0 hw]
        exact ih _ _ _ hrest
      · rw [popHighLoop_part _ _ _ _ _ h0 (by omega)]
        intro x hx
        simp only [List.mem_cons] at hx
        rcases hx with hx | hx
        · rw [hx]
          simp only [BitBlock.PopHigh]
          omega
        · exact hrest x hx

/-- Invariant B after `PopLow`. -/
theorem PopLow_InvB (s : BitDeque) (hB : s.InvB) (size : Int) : InvB (s.PopLow size).2 := by
  unfold PopLow
  split
  · exact hB
  · exact popLowLoop_InvB _ _ _ _ hB

/-- Invariant B after `PopHigh`. -/
theorem PopHigh_InvB (s : BitDeque) (hB : s.InvB) (size : Int) : InvB (s.PopHigh size).2 := by
  unfold PopHigh
  split
  · exact hB
  · exact popHighLoop_InvB _ _ _ _ hB

/-- The scan loop of `Defragment` never builds an empty block out of non-empty ones. -/
theorem defragLoop_sizes_pos (blocks : List BitBlock) (i : Nat)
    (hs : ∀ b ∈ blocks, 0 < b.size) : ∀ b ∈ (defragLoop blocks i).1, 0 < b.size := by
  induction blocks, i using defragLoop.induct with
  | case1 blocks i h current next hc r overflow blocks1 hov ih =>
    exact absurd (by simp [overflow, r, (BitBlock_PushLow_fit current next hc).1, BitBlock.IsEmpty,
      BitBlock.empty]) hov
  | case2 blocks i h current next hc r overflow blocks1 hov ih =>
    rw [defragLoop_merge blocks i h hc]
    apply ih
    intro b hb
    rcases List.mem_or_eq_of_mem_set (List.mem_of_mem_eraseIdx hb) with hb | hb
    · exact hs b hb
    · rw [hb, (BitBlock_PushLow_fit blocks[i] blocks[i + 1] hc).2]
      have := hs blocks[i] (List.getElem_mem _)
      omega
  | case3 blocks i h current next hc ih =>
    rw [defragLoop_advance blocks i h hc]
    exact ih hs
  | case4 blocks i h =>
    rw [defragLoop_exit blocks i h]
    exact hs

/-- Invariant B after `Defragment`, whatever the size field. -/
theorem Defragment_InvB (s : BitDeque) (hB : s.InvB) : InvB (Defragment s) := by
  unfold Defragment
  split
  · exact hB
  · intro b hb
    exact ⟨defragLoop_sizes_pos s._blocks 0 (fun x hx => (hB x hx).1) b hb,
      defragLoop_sizes_le s._blocks 0 (fun x hx => (hB x hx).2) b hb⟩

/-- C13: in a state in which every block has a size in `1..64`, and for pushed and inserted
values of 1 to 64 bits, every block of the list still has a size in `1..64` after `Clear`,
`SetBits`, `PushLow`, `PushHigh`, `PopLow`, `PopHigh`, `Insert`, `Remove` (both overloads)
and `Defragment`. -/
theorem InvB_preserved (s : BitDeque) (hB : s.InvB) (v : BitBlock) (hv1 : 1 ≤ v.size)
    (hv64 : v.size ≤ 64) (data : Nat) (count : Int) (addr n : Nat) :
    InvB (Clear s) ∧ InvB (s.SetBits data count addr).2 ∧ InvB (s.SetBitsBlock v addr).2 ∧
    InvB (s.PushLowBlock v).2 ∧ InvB (s.PushHighBlock v).2 ∧
    InvB (s.PopLow count).2 ∧ InvB (s.PopHigh count).2 ∧
    InvB (s.Insert v addr) ∧ InvB (s.Remove count addr).2 ∧ InvB (s.RemoveCount n addr).2 ∧
    InvB (Defragment s) := by
  have hvl : (1 : Int) ≤ (v.GetSize : Int) := by simp only [GetSize]; omega
  have hvh : (v.GetSize : Int) ≤ 64 := by simp only [GetSize]; omega
  have hpl : InvB (s.PushLowBlock v).2 := PushLow_InvB s hB _ _ hvl hvh
  have hph : InvB (s.PushHighBlock v).2 := PushHigh_InvB s hB _ _ hvl hvh
  have hrem : ∀ c : Int, InvB (s.Remove c addr).2 := by
    intro c
    unfold Remove
    split
    · exact hB
    · simp only
      split
      · exact hB
      · split
        · exact Defragment_InvB ⟨s._blocks, _⟩ hB
        · exact Defragment_InvB s hB
  refine ⟨?_, SetBits_InvB s hB _ _ _, SetBits_InvB s hB _ _ _, hpl, hph, PopLow_InvB s hB _,
    PopHigh_InvB s hB _, ?_, hrem count, ?_, Defragment_InvB s hB⟩
  · intro b hb
    simp [Clear] at hb
  · unfold Insert
    split
    · exact hB
    · split
      · exact hpl
      · split
        · exact hph
        · exact Defragment_InvB ⟨s._blocks, _⟩ hB
  · unfold RemoveCount
    split
    · exact hB
    · exact hrem _

/-- C13 at a concrete input: a full block followed by a 3-bit block, an 8-bit value. -/
theorem InvB_preserved_witness :
    InvB ⟨[⟨5, 64⟩, ⟨7, 3⟩], 67⟩ ∧
    InvB ((BitDeque.mk [⟨5, 64⟩, ⟨7, 3⟩] 67).PushHighBlock ⟨171, 8⟩).2 ∧
    InvB ((BitDeque.mk [⟨5, 64⟩, ⟨7, 3⟩] 67).PopLow 10).2 ∧
    InvB ((BitDeque.mk [⟨5, 64⟩, ⟨7, 3⟩] 67).Insert ⟨171, 8⟩ 5) ∧
    InvB (Defragment ⟨[⟨5, 64⟩, ⟨7, 3⟩], 67⟩) :=
  ⟨by decide,
   (InvB_preserved ⟨[⟨5, 64⟩, ⟨7, 3⟩], 67⟩ (by decide) ⟨171, 8⟩ (by decide) (by decide)
     9 10 5 2).2.2.2.2.1,
   (InvB_preserved ⟨[⟨5, 64⟩, ⟨7, 3⟩], 67⟩ (by decide) ⟨171, 8⟩ (by decide) (by decide)
     9 10 5 2).2.2.2.2.2.1,
   (InvB_preserved ⟨[⟨5, 64⟩, ⟨7, 3⟩], 67⟩ (by decide) ⟨171, 8⟩ (by decide) (by decide)
     9 10 5 2).2.2.2.2.2.2.2.1,
   (InvB_preserved ⟨[⟨5, 64⟩, ⟨7, 3⟩], 67⟩ (by decide) ⟨171, 8⟩ (by decide) (by decide)
     9 10 5 2).2.2.2.2.2.2.2.2.2.2⟩

/-! ## Insertion at the ends, and two concrete scenarios -/

/-- Under invariants A and B a size field of zero means an empty block list. -/
theorem blocks_nil_of_size_zero (s : BitDeque) (hA : s.InvA) (hB : s.InvB)
    (h0 : s._size = 0) : s._blocks = [] := by
  obtain ⟨blocks, sz⟩ := s
  cases blocks with
  | nil => rfl
  | cons b rest =>
    have hb := (hB b (List.mem_cons_self _ _)).1
    simp only [InvA, sumSizes] at hA
    simp only at h0
    omega

/-- C14: in a state satisfying invariants A and B and for a non-empty block `b`,
`Insert(b, 0)` leaves the state that `PushHigh(b)` leaves, and `Insert(b, addr)` with
`addr ≥ _size` leaves the state that `PushLow(b)` leaves; on the empty sequence, where
address 0 meets both conditions, the two pushes agree. -/
theorem Insert_at_ends_eq_push (s : BitDeque) (hA : s.InvA) (hB : s.InvB) (b : BitBlock)
    (hb : 0 < b.size) (addr : Nat) (haddr : addr ≥ s._size) :
    s.Insert b 0 = (s.PushHighBlock b).2 ∧ s.Insert b addr = (s.PushLowBlock b).2 := by
  have hne : b.IsEmpty = false := by simp [BitBlock.IsEmpty]; omega
  have hlow : s.Insert b addr = (s.PushLowBlock b).2 := by
    simp [Insert, hne, haddr]
  refine ⟨?_, hlow⟩
  by_cases h0 : s._size = 0
  · have hnil := blocks_nil_of_size_zero s hA hB h0
    obtain ⟨blocks, sz⟩ := s
    simp only at hnil h0
    subst hnil
    have hs : ¬ ((b.GetSize : Int) ≤ 0) := by simp only [GetSize]; omega
    simp [Insert, hne, h0, PushLowBlock, PushHighBlock, PushLow, PushHigh, hs]
  · have : ¬ (0 ≥ s._size) := by omega
    simp [Insert, hne, this]

/-- C14 at a concrete input: a one-block state of 3 bits, a 2-bit block and address 3. -/
theorem Insert_at_ends_eq_push_witness :
    InvA ⟨[⟨5, 3⟩], 3⟩ ∧ InvB ⟨[⟨5, 3⟩], 3⟩ ∧ (3 : Nat) ≥ (BitDeque.mk [⟨5, 3⟩] 3)._size ∧
    (BitDeque.mk [⟨5, 3⟩] 3).Insert ⟨3, 2⟩ 0 = ((BitDeque.mk [⟨5, 3⟩] 3).PushHighBlock ⟨3, 2⟩).2 ∧
    (BitDeque.mk [⟨5, 3⟩] 3).Insert ⟨3, 2⟩ 3 = ((BitDeque.mk [⟨5, 3⟩] 3).PushLowBlock ⟨3, 2⟩).2 :=
  ⟨by decide, by decide, by decide,
   Insert_at_ends_eq_push ⟨[⟨5, 3⟩], 3⟩ (by decide) (by decide) ⟨3, 2⟩ (by decide) 3
     (by decide)⟩

/-- C15: starting from the empty sequence, `PushLow(0b101, 3)` then `PushLow(0b11, 2)`
give size 5; `GetBits(0)` then returns the 5-bit block `10111`; `PopHigh(2)` then returns
the 2-bit block `10` and leaves size 3 with content `111`. -/
theorem Scenario_push_get_pop :
    ((BitDeque.new.PushLow 0b101 3).2.PushLow 0b11 2).2._size = 5 ∧
    sumSizes ((BitDeque.new.PushLow 0b101 3).2.PushLow 0b11 2).2._blocks = 5 ∧
    bitsOf ((BitDeque.new.PushLow 0b101 3).2.PushLow 0b11 2).2._blocks = 0b10111 ∧
    ((BitDeque.new.PushLow 0b101 3).2.PushLow 0b11 2).2.GetBits 0 = ⟨0b10111, 5⟩ ∧
    (((BitDeque.new.PushLow 0b101 3).2.PushLow 0b11 2).2.PopHigh 2).1 = ⟨0b10, 2⟩ ∧
    (((BitDeque.new.PushLow 0b101 3).2.PushLow 0b11 2).2.PopHigh 2).2._size = 3 ∧
    sumSizes (((BitDeque.new.PushLow 0b101 3).2.PushLow 0b11 2).2.PopHigh 2).2._blocks = 3 ∧
    bitsOf (((BitDeque.new.PushLow 0b101 3).2.PushLow 0b11 2).2.PopHigh 2).2._blocks
      = 0b111 := by
  have hp : ((BitDeque.new.PushLow 0b101 3).2.PushLow 0b11 2).2 = ⟨[⟨0b10111, 5⟩], 5⟩ := by
    decide
  have hq : (BitDeque.mk [⟨0b10111, 5⟩] 5).PopHigh 2 = (⟨0b10, 2⟩, ⟨[⟨0b111, 3⟩], 3⟩) := by
    have e := PopHigh_eq_loop [⟨0b10111, 5⟩] 5 2 (by decide) (by decide) (by decide)
    rw [popHighLoop_part _ _ _ _ _ (by decide) (by decide)] at e
    rw [show ((2 : Int)) = ((2 : Nat) : Int) from rfl, e]
    decide
  rw [hp, hq]
  decide

/-- Block level: a merge that fits keeps the bits of both blocks, the first above the
second. -/
theorem BitBlock_PushLow_fit_bits (b v : BitBlock) (h : v.GetSize ≤ b.GetSpare) :
    (b.PushLow v).2.data % 2 ^ (b.PushLow v).2.size
      = (b.data % 2 ^ b.size) * 2 ^ v.size + v.data % 2 ^ v.size := by
  simp only [GetSize] at h
  simp only [BitBlock.PushLow, h, if_true, Nat.mod_mod]
  exact shl_add_mod_split _ _ _ _ (Nat.mod_lt _ (Nat.two_pow_pos _))

/-- C16: on a two-block sequence `Defragment()` leaves both blocks as they are when the
spare capacity of the left block is below the size of the right block, and otherwise
replaces them by the single block `left.PushLow(right)`, of `left.size + right.size` bits,
holding the bits of both, with no overflow block. -/
theorem Defragment_two_blocks (left right : BitBlock) (sz : Nat) :
    (left.GetSpare < right.GetSize →
      Defragment ⟨[left, right], sz⟩ = ⟨[left, right], sz⟩) ∧
    (left.GetSpare ≥ right.GetSize →
      Defragment ⟨[left, right], sz⟩ = ⟨[(left.PushLow right).2], sz⟩ ∧
      (left.PushLow right).1 = BitBlock.empty ∧
      (left.PushLow right).2.size = left.size + right.size ∧
      bitsOf [(left.PushLow right).2] = bitsOf [left, right]) := by
  constructor
  · intro h
    have hc : ¬ ([left, right][0].GetSpare ≥ [left, right][0 + 1].GetSize) :=
      Nat.not_le_of_lt h
    unfold Defragment
    rw [defragLoop_advance [left, right] 0 (by simp) hc, defragLoop_exit _ _ (by simp)]
    rfl
  · intro h
    have hc : [left, right][0].GetSpare ≥ [left, right][0 + 1].GetSize := h
    have hf := BitBlock_PushLow_fit left right h
    refine ⟨?_, hf.1, hf.2, ?_⟩
    · unfold Defragment
      rw [defragLoop_merge [left, right] 0 (by simp) hc, defragLoop_exit _ _ (by simp)]
      rfl
    · simp only [bitsOf, sumSizes, BitBlock_PushLow_fit_bits left right h, Nat.pow_zero,
        Nat.mul_one, Nat.add_zero]

/-- C16 at the two inputs of the scenario: two 60-bit blocks stay two 60-bit blocks, and a
4-bit block followed by a 60-bit block becomes one 64-bit block. -/
theorem Defragment_two_blocks_witness :
    (BitBlock.mk 5 60).GetSpare < (BitBlock.mk 7 60).GetSize ∧
    Defragment ⟨[⟨5, 60⟩, ⟨7, 60⟩], 120⟩ = ⟨[⟨5, 60⟩, ⟨7, 60⟩], 120⟩ ∧
    (BitBlock.mk 5 4).GetSpare ≥ (BitBlock.mk 7 60).GetSize ∧
    Defragment ⟨[⟨5, 4⟩, ⟨7, 60⟩], 64⟩ = ⟨[((BitBlock.mk 5 4).PushLow ⟨7, 60⟩).2], 64⟩ ∧
    ((BitBlock.mk 5 4).PushLow ⟨7, 60⟩).2 = ⟨5 * 2 ^ 60 + 7, 64⟩ :=
  ⟨by decide, (Defragment_two_blocks ⟨5, 60⟩ ⟨7, 60⟩ 120).1 (by decide), by decide,
   ((Defragment_two_blocks ⟨5, 4⟩ ⟨7, 60⟩ 64).2 (by decide)).1, by decide⟩

/-! ## Defragmentation: content, block count and termination -/

/-- A list splits around the adjacent pair at index `i`, and writing `m` at `i` while
erasing `i + 1` replaces the pair by `m`. -/
theorem split_at_pair (blocks : List BitBlock) (i : Nat) (h : i + 1 < blocks.length) :
    ∃ pre post, blocks = pre ++ blocks[i] :: blocks[i + 1] :: post ∧
      ∀ m, (blocks.set i m).eraseIdx (i + 1) = pre ++ m :: post := by
  induction blocks generalizing i with
  | nil => simp at h
  | cons a rest ih =>
    cases i with
    | zero =>
      cases rest with
      | nil => simp at h
      | cons b post => exact ⟨[], post, by simp, fun m => by simp⟩
    | succ k =>
      obtain ⟨pre, post, h1, h2⟩ := ih k (by simpa using h)
      refine ⟨a :: pre, post, ?_, fun m => ?_⟩
      · simp only [List.getElem_cons_succ, List.cons_append]
        exact congrArg _ h1
      · simp only [List.set_cons_succ, List.eraseIdx_cons_succ, List.cons_append]
        exact congrArg _ (h2 m)

/-- Replacing an adjacent pair by a block that holds the bits of both keeps the total size
and the bit string. -/
theorem bits_replace_pair (pre post : List BitBlock) (c n m : BitBlock)
    (hsz : m.size = c.size + n.size)
    (hdata : m.data % 2 ^ m.size = (c.data % 2 ^ c.size) * 2 ^ n.size + n.data % 2 ^ n.size) :
    sumSizes (pre ++ m :: post) = sumSizes (pre ++ c :: n :: post) ∧
    bitsOf (pre ++ m :: post) = bitsOf (pre ++ c :: n :: post) := by
  simp only [sumSizes_append, bitsOf_append, sumSizes, bitsOf, hdata]
  rw [hsz]
  constructor
  · omega
  · simp only [Nat.pow_add]
    ring

/-- The scan loop of `Defragment` keeps the total size and the bit string. -/
theorem defragLoop_bits (blocks : List BitBlock) (i : Nat) :
    sumSizes (defragLoop blocks i).1 = sumSizes blocks ∧
    bitsOf (defragLoop blocks i).1 = bitsOf blocks := by
  induction blocks, i using defragLoop.induct with
  | case1 blocks i h current next hc r overflow blocks1 hov ih =>
    exact absurd (by simp [overflow, r, (BitBlock_PushLow_fit current next hc).1, BitBlock.IsEmpty,
      BitBlock.empty]) hov
  | case2 blocks i h current next hc r overflow blocks1 hov ih =>
    rw [defragLoop_merge blocks i h hc]
    obtain ⟨pre, post, h1, h2⟩ := split_at_pair blocks i h
    have hb := bits_replace_pair pre post blocks[i] blocks[i + 1]
      (blocks[i].PushLow blocks[i + 1]).2 (BitBlock_PushLow_fit _ _ hc).2
      (BitBlock_PushLow_fit_bits _ _ hc)
    rw [← h1, ← h2] at hb
    exact ⟨ih.1.trans hb.1, ih.2.trans hb.2⟩
  | case3 blocks i h current next hc ih =>
    rw [defragLoop_advance blocks i h hc]
    exact ih
  | case4 blocks i h =>
    rw [defragLoop_exit blocks i h]
    exact ⟨rfl, rfl⟩

/-- C20: `Defragment()` leaves the size field, the sum of the block sizes and the logical
bit string (blocks concatenated in list order, the back block lowest) unchanged. -/
theorem Defragment_preserves_content (s : BitDeque)
    (_hs : ∀ b ∈ s._blocks, b.size ≤ BitBlock.MAX_NUM_BITS) :
    (Defragment s)._size = s._size ∧
    sumSizes (Defragment s)._blocks = sumSizes s._blocks ∧
    bitsOf (Defragment s)._blocks = bitsOf s._blocks := by
  unfold Defragment
  split
  · exact ⟨rfl, rfl, rfl⟩
  · exact ⟨rfl, (defragLoop_bits s._blocks 0).1, (defragLoop_bits s._blocks 0).2⟩

/-- C20 at a concrete input: a 4-bit, a 60-bit and a 30-bit block. -/
theorem Defragment_preserves_content_witness :
    (∀ b ∈ (BitDeque.mk [⟨5, 4⟩, ⟨7, 60⟩, ⟨9, 30⟩] 94)._blocks, b.size ≤ BitBlock.MAX_NUM_BITS) ∧
    (Defragment ⟨[⟨5, 4⟩, ⟨7, 60⟩, ⟨9, 30⟩], 94⟩)._size = 94 ∧
    sumSizes (Defragment ⟨[⟨5, 4⟩, ⟨7, 60⟩, ⟨9, 30⟩], 94⟩)._blocks
      = sumSizes [⟨5, 4⟩, ⟨7, 60⟩, ⟨9, 30⟩] ∧
    bitsOf (Defragment ⟨[⟨5, 4⟩, ⟨7, 60⟩, ⟨9, 30⟩], 94⟩)._blocks
      = bitsOf [⟨5, 4⟩, ⟨7, 60⟩, ⟨9, 30⟩] :=
  ⟨by decide, Defragment_preserves_content ⟨[⟨5, 4⟩, ⟨7, 60⟩, ⟨9, 30⟩], 94⟩ (by decide)⟩

/-- Without a mergeable pair, two adjacent blocks hold more than 64 bits together, so the
bits of the list outnumber 65 per pair of blocks, plus one for an odd block. -/
theorem sumSizes_lower_bound : ∀ (blocks : List BitBlock),
    NoMergeBelow blocks blocks.length → (∀ b ∈ blocks, 0 < b.size) →
    65 * (blocks.length / 2) + blocks.length % 2 ≤ sumSizes blocks
  | [], _, _ => by simp [sumSizes]
  | [a], _, hpos => by
    have := hpos a (List.mem_singleton_self a)
    simp [sumSizes]; omega
  | a :: b :: rest, hinv, hpos => by
    have hab : a.GetSpare < b.GetSize := hinv 0 (by simp) (by simp)
    have hrest : NoMergeBelow rest rest.length := by
      intro j hj hlen
      exact hinv (j + 2) (by simp; omega) (by simp; omega)
    have ih := sumSizes_lower_bound rest hrest
      (fun x hx => hpos x (List.mem_cons_of_mem _ (List.mem_cons_of_mem _ hx)))
    simp only [GetSpare, GetSize, MAX_NUM_BITS] at hab
    simp only [sumSizes, List.length_cons]
    omega

/-- C18: when every block has a size in `1..64` and the blocks hold `T > 0` bits in all,
the block list after `Defragment()` has at most `2 * ⌈T / 64⌉` blocks. -/
theorem Defragment_block_count (s : BitDeque) (hB : s.InvB) (T : Nat)
    (hT : sumSizes s._blocks = T) (_hpos : 0 < T) :
    (Defragment s)._blocks.length ≤ 2 * ((T + 63) / 64) := by
  have hpos : ∀ b ∈ (Defragment s)._blocks, 0 < b.size :=
    fun b hb => (Defragment_InvB s hB b hb).1
  have hsum : sumSizes (Defragment s)._blocks = T := by
    rw [← hT]
    unfold Defragment
    split
    · rfl
    · exact (defragLoop_bits s._blocks 0).1
  have h := sumSizes_lower_bound (Defragment s)._blocks (Defragment_noMerge s) hpos
  rw [hsum] at h
  omega

/-- C18 at a concrete input: five blocks of 94 bits in all become two blocks, within the
bound of four. -/
theorem Defragment_block_count_witness :
    InvB ⟨[⟨1, 2⟩, ⟨1, 2⟩, ⟨7, 60⟩, ⟨9, 20⟩, ⟨3, 10⟩], 94⟩ ∧
    sumSizes (BitDeque.mk [⟨1, 2⟩, ⟨1, 2⟩, ⟨7, 60⟩, ⟨9, 20⟩, ⟨3, 10⟩] 94)._blocks = 94 ∧
    (Defragment ⟨[⟨1, 2⟩, ⟨1, 2⟩, ⟨7, 60⟩, ⟨9, 20⟩, ⟨3, 10⟩], 94⟩)._blocks.length
      ≤ 2 * ((94 + 63) / 64) :=
  ⟨by decide, by decide,
   Defragment_block_count ⟨[⟨1, 2⟩, ⟨1, 2⟩, ⟨7, 60⟩, ⟨9, 20⟩, ⟨3, 10⟩], 94⟩ (by decide) 94
     (by decide) (by decide)⟩

/-- Induction along the scan loop of `Defragment`: the loop exits, advances, or merges
without overflow. -/
theorem defragLoop_cases (P : List BitBlock → Nat → Prop)
    (hexit : ∀ blocks i, ¬ i + 1 < blocks.length → P blocks i)
    (hadv : ∀ blocks i (h : i + 1 < blocks.length),
      ¬ blocks[i].GetSpare ≥ blocks[i + 1].GetSize → P blocks (i + 1) → P blocks i)
    (hmerge : ∀ blocks i (h : i + 1 < blocks.length),
      blocks[i].GetSpare ≥ blocks[i + 1].GetSize →
      P ((blocks.set i (blocks[i].PushLow blocks[i + 1]).2).eraseIdx (i + 1)) i → P blocks i)
    (blocks : List BitBlock) (i : Nat) : P blocks i := by
  induction blocks, i using defragLoop.induct with
  | case1 blocks i h current next hc r overflow blocks1 hov ih =>
    exact absurd (by simp [overflow, r, (BitBlock_PushLow_fit current next hc).1, BitBlock.IsEmpty,
      BitBlock.empty]) hov
  | case2 blocks i h current next hc r overflow blocks1 hov ih => exact hmerge blocks i h hc ih
  | case3 blocks i h current next hc ih => exact hadv blocks i h hc ih
  | case4 blocks i h => exact hexit blocks i h

/-- The scan loop of `Defragment` never lengthens the list and never lowers the index, and
it returns with the index at the last block or beyond. -/
theorem defragLoop_mono (blocks : List BitBlock) (i : Nat) :
    (defragLoop blocks i).1.length ≤ blocks.length ∧ i ≤ (defragLoop blocks i).2 ∧
    ¬ ((defragLoop blocks i).2 + 1 < (defragLoop blocks i).1.length) := by
  refine defragLoop_cases
    (fun blocks i => (defragLoop blocks i).1.length ≤ blocks.length ∧
      i ≤ (defragLoop blocks i).2 ∧
      ¬ ((defragLoop blocks i).2 + 1 < (defragLoop blocks i).1.length)) ?_ ?_ ?_ blocks i
  · intro blocks i h
    simp only [defragLoop_exit blocks i h]
    exact ⟨Nat.le_refl _, Nat.le_refl _, h⟩
  · intro blocks i h hc ih
    simp only [defragLoop_advance blocks i h hc]
    exact ⟨ih.1, by omega, ih.2.2⟩
  · intro blocks i h hc ih
    have hlen : ((blocks.set i (blocks[i].PushLow blocks[i + 1]).2).eraseIdx (i + 1)).length
        = blocks.length - 1 := by
      simp only [List.length_eraseIdx, List.length_set, h, if_true]
    simp only [defragLoop_merge blocks i h hc]
    rw [hlen] at ih
    exact ⟨by omega, ih.2.1, ih.2.2⟩

/-- The scan loop of `Defragment` returns within one iteration per merge (each shortens the
list by one block) plus one per advance of the index, and that is at most the distance of
the index from the last block. -/
theorem defragLoop_fuel (blocks : List BitBlock) (i : Nat) :
    defragLoopFuel
        ((blocks.length - (defragLoop blocks i).1.length) + ((defragLoop blocks i).2 - i))
        blocks i = some (defragLoop blocks i) ∧
    (blocks.length - (defragLoop blocks i).1.length) + ((defragLoop blocks i).2 - i)
      ≤ blocks.length - 1 - i := by
  refine defragLoop_cases
    (fun blocks i => defragLoopFuel
        ((blocks.length - (defragLoop blocks i).1.length) + ((defragLoop blocks i).2 - i))
        blocks i = some (defragLoop blocks i) ∧
      (blocks.length - (defragLoop blocks i).1.length) + ((defragLoop blocks i).2 - i)
        ≤ blocks.length - 1 - i) ?_ ?_ ?_ blocks i
  · intro blocks i h
    simp only [defragLoop_exit blocks i h]
    simp [defragLoopFuel, h]
  · intro blocks i h hc ih
    have hm := defragLoop_mono blocks (i + 1)
    simp only [defragLoop_advance blocks i h hc]
    generalize defragLoop blocks (i + 1) = out at ih hm ⊢
    obtain ⟨ih1, ih2⟩ := ih
    have hf : (blocks.length - out.1.length) + (out.2 - i)
        = ((blocks.length - out.1.length) + (out.2 - (i + 1))) + 1 := by omega
    refine ⟨?_, by omega⟩
    rw [hf, defragLoopFuel]
    simp only [h, dite_true, hc, if_false]
    exact ih1
  · intro blocks i h hc ih
    have hm := defragLoop_mono ((blocks.set i (blocks[i].PushLow blocks[i + 1]).2).eraseIdx (i + 1)) i
    have hlen : ((blocks.set i (blocks[i].PushLow blocks[i + 1]).2).eraseIdx (i + 1)).length
        = blocks.length - 1 := by
      simp only [List.length_eraseIdx, List.length_set, h, if_true]
    have he := (BitBlock_PushLow_fit blocks[i] blocks[i + 1] hc).1
    simp only [defragLoop_merge blocks i h hc]
    rw [hlen] at ih hm
    generalize defragLoop ((blocks.set i (blocks[i].PushLow blocks[i + 1]).2).eraseIdx (i + 1)) i
      = out at ih hm ⊢
    obtain ⟨ih1, ih2⟩ := ih
    have hf : (blocks.length - out.1.length) + (out.2 - i)
        = ((blocks.length - 1 - out.1.length) + (out.2 - i)) + 1 := by omega
    refine ⟨?_, by omega⟩
    rw [hf, defragLoopFuel]
    simp only [h, dite_true, hc, if_true, he, BitBlock.IsEmpty, BitBlock.empty]
    simpa using ih1

/-- C19: on a block list with block sizes in `0..64` the scan loop of `Defragment()`
finishes: run on a budget of one iteration per merge (the list gets one block shorter each
time) plus one per advance of the index, it returns the result of the loop; that budget is
at most the number of blocks minus one; and a merge taken under
`spare(current) ≥ next.size` leaves no overflow block. -/
theorem Defragment_terminates (blocks : List BitBlock)
    (_hs : ∀ b ∈ blocks, b.size ≤ BitBlock.MAX_NUM_BITS) :
    defragLoopFuel
        ((blocks.length - (defragLoop blocks 0).1.length) + (defragLoop blocks 0).2)
        blocks 0 = some (defragLoop blocks 0) ∧
    (blocks.length - (defragLoop blocks 0).1.length) + (defragLoop blocks 0).2
      ≤ blocks.length - 1 ∧
    ¬ ((defragLoop blocks 0).2 + 1 < (defragLoop blocks 0).1.length) ∧
    ∀ current next : BitBlock, current.GetSpare ≥ next.GetSize →
      (current.PushLow next).1.IsEmpty = true := by
  have h := defragLoop_fuel blocks 0
  simp only [Nat.sub_zero] at h
  refine ⟨h.1, h.2, (defragLoop_mono blocks 0).2.2, ?_⟩
  · intro current next hc
    rw [(BitBlock_PushLow_fit current next hc).1]
    rfl

/-- C19 at a concrete input: a 4-bit, a 60-bit and a 30-bit block take one merge and one
advance, two iterations in all. -/
theorem Defragment_terminates_witness :
    (∀ b ∈ [BitBlock.mk 5 4, ⟨7, 60⟩, ⟨9, 30⟩], b.size ≤ BitBlock.MAX_NUM_BITS) ∧
    defragLoopFuel 2 [⟨5, 4⟩, ⟨7, 60⟩, ⟨9, 30⟩] 0 = some ([⟨5 * 2 ^ 60 + 7, 64⟩, ⟨9, 30⟩], 1) ∧
    defragLoopFuel
        (([BitBlock.mk 5 4, ⟨7, 60⟩, ⟨9, 30⟩].length
            - (defragLoop [⟨5, 4⟩, ⟨7, 60⟩, ⟨9, 30⟩] 0).1.length)
          + (defragLoop [⟨5, 4⟩, ⟨7, 60⟩, ⟨9, 30⟩] 0).2)
        [⟨5, 4⟩, ⟨7, 60⟩, ⟨9, 30⟩] 0 = some (defragLoop [⟨5, 4⟩, ⟨7, 60⟩, ⟨9, 30⟩] 0) :=
  ⟨by decide, by decide,
   (Defragment_terminates [⟨5, 4⟩, ⟨7, 60⟩, ⟨9, 30⟩] (by decide)).1⟩

/-! ## The bits returned by a pop -/

/-- Shifting right past a shifted term: the low term disappears. -/
theorem shl_add_div_pow (x y n k : Nat) (hy : y < 2 ^ n) :
    (x * 2 ^ n + y) / 2 ^ (n + k) = x / 2 ^ k := by
  rw [Nat.pow_add, ← Nat.div_div_eq_div_mul, shl_add_div _ _ _ hy]

/-- The low `k` bits of a sum whose first term is shifted by at least `k`. -/
theorem shl_add_mod_low (x y n k : Nat) (hk : k ≤ n) :
    (x * 2 ^ n + y) % 2 ^ k = y % 2 ^ k := by
  obtain ⟨d, rfl⟩ : ∃ d, n = d + k := ⟨n - k, by omega⟩
  rw [Nat.pow_add, ← Nat.mul_assoc, shl_add_mod]

/-- Shifting right by less than the shift of the first term. -/
theorem shl_add_div_low (x y n k : Nat) (hk : k ≤ n) :
    (x * 2 ^ n + y) / 2 ^ k = x * 2 ^ (n - k) + y / 2 ^ k := by
  obtain ⟨d, rfl⟩ : ∃ d, n = d + k := ⟨n - k, by omega⟩
  rw [Nat.add_sub_cancel, Nat.pow_add, ← Nat.mul_assoc, Nat.add_comm,
    Nat.add_mul_div_right _ _ (Nat.two_pow_pos k), Nat.add_comm]

/-- The bit string of a block list fits in as many bits as the blocks hold. -/
theorem bitsOf_lt (blocks : List BitBlock) : bitsOf blocks < 2 ^ sumSizes blocks := by
  induction blocks with
  | nil => simp [bitsOf, sumSizes]
  | cons b rest ih =>
    simp only [bitsOf, sumSizes, Nat.pow_add]
    have hb : b.data % 2 ^ b.size < 2 ^ b.size := Nat.mod_lt _ (Nat.two_pow_pos _)
    calc b.data % 2 ^ b.size * 2 ^ sumSizes rest + bitsOf rest
        < b.data % 2 ^ b.size * 2 ^ sumSizes rest + 2 ^ sumSizes rest := by omega
      _ = (b.data % 2 ^ b.size + 1) * 2 ^ sumSizes rest := by ring
      _ ≤ 2 ^ b.size * 2 ^ sumSizes rest := Nat.mul_le_mul_right _ hb

/-- The result of `PopLow` after it takes the block `v` (the first one copied, a later one
pushed on the high side): `v` sits above the bits gathered so far. -/
theorem result_take_high (result v : BitBlock) (hfit : result.size + v.size ≤ 64) :
    (if result.IsEmpty then v else (result.PushHigh v).2).size = result.size + v.size ∧
    (if result.IsEmpty then v else (result.PushHigh v).2).data
        % 2 ^ (result.size + v.size)
      = (v.data % 2 ^ v.size) * 2 ^ result.size + result.data % 2 ^ result.size := by
  by_cases he : result.size = 0
  · simp [BitBlock.IsEmpty, he, Nat.mod_one]
  · have hf : v.size ≤ 64 - result.size := by omega
    simp only [BitBlock.IsEmpty, beq_iff_eq, he, if_false, BitBlock.PushHigh, GetSpare,
      MAX_NUM_BITS, hf, if_true, Nat.mod_mod, true_and]
    rw [Nat.add_comm result.size v.size,
      shl_add_mod_split _ _ _ _ (Nat.mod_lt _ (Nat.two_pow_pos _)), Nat.mod_mod]

/-- The result of `PopHigh` after it takes the block `v` (the first one copied, a later one
pushed on the low side): `v` sits below the bits gathered so far. -/
theorem result_take_low (result v : BitBlock) (hfit : result.size + v.size ≤ 64) :
    (if result.IsEmpty then v else (result.PushLow v).2).size = result.size + v.size ∧
    (if result.IsEmpty then v else (result.PushLow v).2).data
        % 2 ^ (result.size + v.size)
      = (result.data % 2 ^ result.size) * 2 ^ v.size + v.data % 2 ^ v.size := by
  by_cases he : result.size = 0
  · simp [BitBlock.IsEmpty, he, Nat.mod_one]
  · have hf : v.size ≤ 64 - result.size := by omega
    simp only [BitBlock.IsEmpty, beq_iff_eq, he, if_false, BitBlock.PushLow, GetSpare,
      MAX_NUM_BITS, hf, if_true, Nat.mod_mod, true_and]
    rw [shl_add_mod_split _ _ _ _ (Nat.mod_lt _ (Nat.two_pow_pos _))]

/-- What the loop of `PopLow` computes when the result has room for the bits requested:
with `m` the smaller of `rem` and the number of bits in the list, the result gains the `m`
lowest bits of the list above those it holds, and the list keeps the bits above them. -/
theorem popLowLoop_spec (blocks : List BitBlock) (sz rem : Nat) (result : BitBlock)
    (hB : ∀ b ∈ blocks, 0 < b.size ∧ b.size ≤ MAX_NUM_BITS)
    (hr : result.size + rem ≤ 64) :
    (popLowLoop blocks sz rem result).1.size = result.size + min rem (sumSizes blocks) ∧
    (popLowLoop blocks sz rem result).1.data % 2 ^ (result.size + min rem (sumSizes blocks))
      = (bitsOf blocks % 2 ^ min rem (sumSizes blocks)) * 2 ^ result.size
        + result.data % 2 ^ result.size ∧
    sumSizes (popLowLoop blocks sz rem result).2.1
      = sumSizes blocks - min rem (sumSizes blocks) ∧
    bitsOf (popLowLoop blocks sz rem result).2.1
      = bitsOf blocks / 2 ^ min rem (sumSizes blocks) ∧
    (popLowLoop blocks sz rem result).2.2 = sz - min rem (sumSizes blocks) := by
  induction blocks using List.reverseRecOn generalizing sz rem result with
  | nil =>
    rw [popLowLoop_nil]
    simp [sumSizes, bitsOf, Nat.mod_one]
  | append_singleton init b ih =>
    have hinit : ∀ x ∈ init, 0 < x.size ∧ x.size ≤ MAX_NUM_BITS :=
      fun x hx => hB x (by simp [hx])
    have hb := hB b (by simp)
    simp only [MAX_NUM_BITS] at hb
    have hsum : sumSizes (init ++ [b]) = sumSizes init + b.size := by
      simp [sumSizes_append, sumSizes]
    have hbits : bitsOf (init ++ [b]) = bitsOf init * 2 ^ b.size + b.data % 2 ^ b.size := by
      simp [bitsOf_append, sumSizes, bitsOf]
    have hB2 : b.data % 2 ^ b.size < 2 ^ b.size := Nat.mod_lt _ (Nat.two_pow_pos _)
    rcases Nat.eq_zero_or_pos rem with h0 | h0
    · subst h0
      rw [popLowLoop_zero]
      simp [Nat.mod_one]
    · by_cases hw : b.size ≤ rem
      · rw [popLowLoop_whole _ _ _ _ _ h0 hw]
        obtain ⟨t1, t2⟩ := result_take_high result b (by omega)
        have := ih (sz - b.size) (rem - b.size)
          (if result.IsEmpty then b else (result.PushHigh b).2) hinit (by rw [t1]; omega)
        obtain ⟨i1, i2, i3, i4, i5⟩ := this
        have hm : min rem (sumSizes init + b.size)
            = min (rem - b.size) (sumSizes init) + b.size := by omega
        rw [hsum, hbits, hm]
        generalize min (rem - b.size) (sumSizes init) = m' at *
        rw [t1] at i1 i2
        rw [t2] at i2
        refine ⟨by rw [i1]; omega, ?_, by rw [i3]; omega, ?_, by rw [i5]; omega⟩
        · have e : result.size + (m' + b.size) = result.size + b.size + m' := by omega
          rw [e, i2, shl_add_mod_split _ _ _ _ hB2]
          simp only [Nat.pow_add]
          ring
        · rw [i4, Nat.add_comm m' b.size, shl_add_div_pow _ _ _ _ hB2]
      · have hlt : rem < b.size := by omega
        rw [popLowLoop_part _ _ _ _ _ h0 hlt]
        have hps : (b.PopLow rem).1.size = rem := by
          simp only [BitBlock.PopLow]; omega
        have hpd : (b.PopLow rem).1.data % 2 ^ rem = b.data % 2 ^ rem := by
          simp only [BitBlock.PopLow, Nat.min_eq_left (Nat.le_of_lt hlt), Nat.mod_mod]
        have hqs : (b.PopLow rem).2.size = b.size - rem := by
          simp only [BitBlock.PopLow]; omega
        have hqd : (b.PopLow rem).2.data = (b.data % 2 ^ b.size) / 2 ^ rem := by
          simp only [BitBlock.PopLow, Nat.min_eq_left (Nat.le_of_lt hlt)]
        obtain ⟨t1, t2⟩ := result_take_high result (b.PopLow rem).1 (by rw [hps]; omega)
        rw [hps] at t1 t2
        rw [hpd] at t2
        have hm : min rem (sumSizes init + b.size) = rem := by omega
        rw [hsum, hbits, hm]
        refine ⟨t1, ?_, ?_, ?_, rfl⟩
        · rw [t2, shl_add_mod_low _ _ _ _ (Nat.le_of_lt hlt),
            mod_pow_mod_pow _ _ _ (Nat.le_of_lt hlt)]
        · simp only [sumSizes_append, sumSizes, hqs]
          omega
        · simp only [bitsOf_append, sumSizes, bitsOf, hqs, hqd, Nat.pow_zero, Nat.mul_one,
            Nat.add_zero, Nat.zero_add]
          rw [shl_add_div_low _ _ _ _ (Nat.le_of_lt hlt)]
          congr 1
          apply Nat.mod_eq_of_lt
          rw [Nat.div_lt_iff_lt_mul (Nat.two_pow_pos _), ← Nat.pow_add]
          have : b.size - rem + rem = b.size := by omega
          rw [this]
          exact hB2

/-- What the loop of `PopHigh` computes when the result has room for the bits requested:
with `m` the smaller of `rem` and the number of bits in the list, the result gains the `m`
highest bits of the list below those it holds, and the list keeps the bits below them. -/
theorem popHighLoop_spec (blocks : List BitBlock) (sz rem : Nat) (result : BitBlock)
    (hB : ∀ b ∈ blocks, 0 < b.size ∧ b.size ≤ MAX_NUM_BITS)
    (hr : result.size + rem ≤ 64) :
    (popHighLoop blocks sz rem result).1.size = result.size + min rem (sumSizes blocks) ∧
    (popHighLoop blocks sz rem result).1.data % 2 ^ (result.size + min rem (sumSizes blocks))
      = (result.data % 2 ^ result.size) * 2 ^ min rem (sumSizes blocks)
        + bitsOf blocks / 2 ^ (sumSizes blocks - min rem (sumSizes blocks)) ∧
    sumSizes (popHighLoop blocks sz rem result).2.1
      = sumSizes blocks - min rem (sumSizes blocks) ∧
    bitsOf (popHighLoop blocks sz rem result).2.1
      = bitsOf blocks % 2 ^ (sumSizes blocks - min rem (sumSizes blocks)) ∧
    (popHighLoop blocks sz rem result).2.2 = sz - min rem (sumSizes blocks) := by
  induction blocks generalizing sz rem result with
  | nil =>
    rw [popHighLoop_nil]
    simp [sumSizes, bitsOf, Nat.mod_one]
  | cons b rest ih =>
    have hrest : ∀ x ∈ rest, 0 < x.size ∧ x.size ≤ MAX_NUM_BITS :=
      fun x hx => hB x (List.mem_cons_of_mem _ hx)
    have hb := hB b (List.mem_cons_self _ _)
    simp only [MAX_NUM_BITS] at hb
    have hB2 : b.data % 2 ^ b.size < 2 ^ b.size := Nat.mod_lt _ (Nat.two_pow_pos _)
    have hI := bitsOf_lt rest
    rcases Nat.eq_zero_or_pos rem with h0 | h0
    · subst h0
      rw [popHighLoop_zero]
      have hlt := bitsOf_lt (b :: rest)
      simp [Nat.div_eq_of_lt hlt, Nat.mod_eq_of_lt hlt]
    · simp only [sumSizes, bitsOf]
      by_cases hw : b.size ≤ rem
      · rw [popHighLoop_whole _ _ _ _ _ h0 hw]
        obtain ⟨t1, t2⟩ := result_take_low result b (by omega)
        have := ih (sz - b.size) (rem - b.size)
          (if result.IsEmpty then b else (result.PushLow b).2) hrest (by rw [t1]; omega)
        obtain ⟨i1, i2, i3, i4, i5⟩ := this
        have hm : min rem (b.size + sumSizes rest)
            = b.size + min (rem - b.size) (sumSizes rest) := by omega
        have hle : min (rem - b.size) (sumSizes rest) ≤ sumSizes rest := Nat.min_le_right _ _
        rw [hm]
        generalize min (rem - b.size) (sumSizes rest) = m' at *
        have hd : b.size + sumSizes rest - (b.size + m') = sumSizes rest - m' := by omega
        rw [t1] at i1 i2
        rw [t2] at i2
        rw [hd]
        refine ⟨by rw [i1]; omega, ?_, by rw [i3], ?_, by rw [i5]; omega⟩
        · have e : result.size + (b.size + m') = result.size + b.size + m' := by omega
          rw [e, i2, shl_add_div_low _ _ _ _ (Nat.sub_le _ _)]
          have e2 : sumSizes rest - (sumSizes rest - m') = m' := by omega
          rw [e2]
          simp only [Nat.pow_add]
          ring
        · rw [i4, shl_add_mod_low _ _ _ _ (Nat.sub_le _ _)]
      · have hlt : rem < b.size := by omega
        rw [popHighLoop_part _ _ _ _ _ h0 hlt]
        have hps : (b.PopHigh rem).1.size = rem := by
          simp only [BitBlock.PopHigh]; omega
        have hpd : (b.PopHigh rem).1.data = (b.data % 2 ^ b.size) / 2 ^ (b.size - rem) := by
          simp only [BitBlock.PopHigh, Nat.min_eq_left (Nat.le_of_lt hlt)]
        have hqs : (b.PopHigh rem).2.size = b.size - rem := by
          simp only [BitBlock.PopHigh]; omega
        have hqd : (b.PopHigh rem).2.data = b.data % 2 ^ (b.size - rem) := by
          simp only [BitBlock.PopHigh, Nat.min_eq_left (Nat.le_of_lt hlt)]
        obtain ⟨t1, t2⟩ := result_take_low result (b.PopHigh rem).1 (by rw [hps]; omega)
        rw [hps] at t1 t2
        rw [hpd] at t2
        have hm : min rem (b.size + sumSizes rest) = rem := by omega
        have hd : b.size + sumSizes rest - rem = sumSizes rest + (b.size - rem) := by omega
        have hsmall : b.data % 2 ^ b.size / 2 ^ (b.size - rem) < 2 ^ rem := by
          rw [Nat.div_lt_iff_lt_mul (Nat.two_pow_pos _), ← Nat.pow_add]
          have : rem + (b.size - rem) = b.size := by omega
          rw [this]
          exact hB2
        rw [hm, hd]
        refine ⟨t1, ?_, ?_, ?_, rfl⟩
        · rw [t2, Nat.mod_eq_of_lt hsmall, shl_add_div_pow _ _ _ _ hI]
        · simp only [sumSizes, hqs]
          omega
        · simp only [bitsOf, hqs, hqd, Nat.mod_mod]
          rw [Nat.add_comm (sumSizes rest) (b.size - rem), shl_add_mod_split _ _ _ _ hI,
            mod_pow_mod_pow _ _ _ (Nat.sub_le _ _)]

/-- C17: in a state satisfying invariants A and B and for `1 ≤ count ≤ 64`, with
`m = min(count, _size)`: `PopLow(count)` returns a block of exactly `m` bits, the `m` lowest
bits of the logical bit string in their order, and leaves the bit string without them
(size field and total block size lowered by `m`); `PopHigh(count)` returns the `m` highest
bits and leaves the bits below them. -/
theorem Pop_returns_end_bits (s : BitDeque) (hA : s.InvA) (hB : s.InvB) (count : Int)
    (h1 : 1 ≤ count) (h64 : count ≤ 64) :
    ((s.PopLow count).1.GetSize = min count.toNat s._size ∧
      (s.PopLow count).1.GetData = bitsOf s._blocks % 2 ^ min count.toNat s._size ∧
      bitsOf (s.PopLow count).2._blocks = bitsOf s._blocks / 2 ^ min count.toNat s._size ∧
      sumSizes (s.PopLow count).2._blocks = s._size - min count.toNat s._size ∧
      (s.PopLow count).2._size = s._size - min count.toNat s._size) ∧
    ((s.PopHigh count).1.GetSize = min count.toNat s._size ∧
      (s.PopHigh count).1.GetData
        = bitsOf s._blocks / 2 ^ (s._size - min count.toNat s._size) ∧
      bitsOf (s.PopHigh count).2._blocks
        = bitsOf s._blocks % 2 ^ (s._size - min count.toNat s._size) ∧
      sumSizes (s.PopHigh count).2._blocks = s._size - min count.toNat s._size ∧
      (s.PopHigh count).2._size = s._size - min count.toNat s._size) := by
  obtain ⟨n, rfl⟩ : ∃ n : Nat, count = (n : Int) := ⟨count.toNat, by omega⟩
  have hn1 : 0 < n := by omega
  have hn64 : n ≤ 64 := by omega
  simp only [Int.toNat_ofNat]
  by_cases h0 : s._size = 0
  · have hnil := blocks_nil_of_size_zero s hA hB h0
    have hl : s.PopLow (n : Int) = (BitBlock.empty, s) := by simp [PopLow, h0]
    have hh : s.PopHigh (n : Int) = (BitBlock.empty, s) := by simp [PopHigh, h0]
    rw [hl, hh, h0, hnil]
    simp [GetSize, GetData, BitBlock.empty, bitsOf, sumSizes, Nat.mod_one]
  · have hne : s._blocks ≠ [] := by
      intro hnil
      have := hA
      simp only [InvA, hnil, sumSizes] at this
      exact h0 this
    obtain ⟨blocks, sz⟩ := s
    simp only [InvA] at hA
    simp only at hA hne h0 ⊢
    subst hA
    have hs0 : BitBlock.empty.size = 0 := rfl
    have hd0 : BitBlock.empty.data = 0 := rfl
    constructor
    · rw [PopLow_eq_loop _ _ _ hn1 hne h0]
      obtain ⟨p1, p2, p3, p4, p5⟩ := popLowLoop_spec blocks (sumSizes blocks) n BitBlock.empty hB
        (by rw [hs0]; omega)
      simp only [hs0, hd0, Nat.zero_add, Nat.pow_zero, Nat.mul_one, Nat.mod_one,
        Nat.add_zero] at p1 p2
      simp only [GetSize, GetData]
      exact ⟨p1, by rw [p1]; exact p2, p4, p3, p5⟩
    · rw [PopHigh_eq_loop _ _ _ hn1 hne h0]
      obtain ⟨p1, p2, p3, p4, p5⟩ := popHighLoop_spec blocks (sumSizes blocks) n BitBlock.empty
        hB (by rw [hs0]; omega)
      simp only [hs0, hd0, Nat.zero_add, Nat.pow_zero, Nat.mod_one, Nat.zero_mul] at p1 p2
      simp only [GetSize, GetData]
      exact ⟨p1, by rw [p1]; exact p2, p4, p3, p5⟩

/-- C17 at a concrete input: 10 bits popped from a 3-bit block, a 4-bit block and a 5-bit
block, so that two whole blocks are consumed and the third is split. -/
theorem Pop_returns_end_bits_witness :
    InvA ⟨[⟨5, 3⟩, ⟨9, 4⟩, ⟨19, 5⟩], 12⟩ ∧ InvB ⟨[⟨5, 3⟩, ⟨9, 4⟩, ⟨19, 5⟩], 12⟩ ∧
    bitsOf (BitDeque.mk [⟨5, 3⟩, ⟨9, 4⟩, ⟨19, 5⟩] 12)._blocks = 0b101100110011 ∧
    ((BitDeque.mk [⟨5, 3⟩, ⟨9, 4⟩, ⟨19, 5⟩] 12).PopLow 10).1.GetSize
      = min (10 : Int).toNat (BitDeque.mk [⟨5, 3⟩, ⟨9, 4⟩, ⟨19, 5⟩] 12)._size ∧
    ((BitDeque.mk [⟨5, 3⟩, ⟨9, 4⟩, ⟨19, 5⟩] 12).PopLow 10).1.GetData
      = bitsOf (BitDeque.mk [⟨5, 3⟩, ⟨9, 4⟩, ⟨19, 5⟩] 12)._blocks
        % 2 ^ min (10 : Int).toNat (BitDeque.mk [⟨5, 3⟩, ⟨9, 4⟩, ⟨19, 5⟩] 12)._size ∧
    ((BitDeque.mk [⟨5, 3⟩, ⟨9, 4⟩, ⟨19, 5⟩] 12).PopHigh 10).1.GetData
      = bitsOf (BitDeque.mk [⟨5, 3⟩, ⟨9, 4⟩, ⟨19, 5⟩] 12)._blocks
        / 2 ^ ((BitDeque.mk [⟨5, 3⟩, ⟨9, 4⟩, ⟨19, 5⟩] 12)._size
          - min (10 : Int).toNat (BitDeque.mk [⟨5, 3⟩, ⟨9, 4⟩, ⟨19, 5⟩] 12)._size) :=
  ⟨by decide, by decide, by decide,
   (Pop_returns_end_bits ⟨[⟨5, 3⟩, ⟨9, 4⟩, ⟨19, 5⟩], 12⟩ (by decide) (by decide) 10
     (by decide) (by decide)).1.1,
   (Pop_returns_end_bits ⟨[⟨5, 3⟩, ⟨9, 4⟩, ⟨19, 5⟩], 12⟩ (by decide) (by decide) 10
     (by decide) (by decide)).1.2.1,
   (Pop_returns_end_bits ⟨[⟨5, 3⟩, ⟨9, 4⟩, ⟨19, 5⟩], 12⟩ (by decide) (by decide) 10
     (by decide) (by decide)).2.2.1⟩

end BitDeque

end rmf
